import Mathlib

/-!
Factom address codec (`src/addresses.js`)

A shallow embedding of the address codec of factomjs and the proofs of its
specified properties.

* Buffers are lists of byte values (`List Nat`, every entry below 256).
* JavaScript strings are Lean strings, read as their list of characters. Every character the
  codec accepts is one UTF-16 unit, so indices and slices agree on all strings that matter; a
  string with any other character is rejected on both sides.
* A key given as a string is read from its UTF-16 code units (`jsUnits`), since the hexadecimal
  decoder of Node.js looks at the low byte of every unit.
* A function that can throw returns `Option` or `Except`.
* The hash `sha256d` and the key derivation are parameters of the functions
  that call them; `sha256d` below is the concrete double SHA-256.
-/

namespace Factom

/-! ## Buffers -/

/-- Every entry of the list is a byte value. -/
def IsBytes (b : List Nat) : Prop := ∀ x ∈ b, x < 256

instance (b : List Nat) : Decidable (IsBytes b) := by
  unfold IsBytes; infer_instance

/-- A hash function whose digests are 32 bytes long. -/
def IsDigest32 (H : List Nat → List Nat) : Prop :=
  ∀ x, (H x).length = 32 ∧ IsBytes (H x)

/-- JavaScript `slice(start, end)` on a buffer or array, for indices within `0 ≤ start ≤ end`. -/
def slice (b : List α) (start stop : Nat) : List α := (b.take stop).drop start

/-! ## Positional number conversion used by the Base58 codec -/

/-- Value of a big-endian digit string in the given base. -/
def ofBE (base : Nat) (l : List Nat) : Nat := l.foldl (fun acc d => acc * base + d) 0

/-- Little-endian digits of `n` in the given base, no digit for zero; `fuel` bounds the
number of digits produced. -/
def toLE (base : Nat) : Nat → Nat → List Nat
  | 0, _ => []
  | fuel + 1, n => if n = 0 then [] else n % base :: toLE base fuel (n / base)

/-- Re-expression of a big-endian digit string of base `src` in base `dst`: each leading zero
digit is kept as one zero digit, the rest is converted as a number. -/
def rebase (src dst fuel : Nat) (l : List Nat) : List Nat :=
  (l.takeWhile (fun d => d = 0)).map (fun _ => 0) ++ (toLE dst fuel (ofBE src l)).reverse

/-- A digit string whose first digit, if any, is not zero. -/
def NoLeadingZero (R : List Nat) : Prop := ∀ h ∈ R.head?, h ≠ 0

/-! ## Base58 -/

/-- Modelled from the spec: the alphabet of the Base58 codec (`require('base-58')`, a package
absent from src/), the standard Bitcoin alphabet. -/
def ALPHABET : List Char :=
  "123456789ABCDEFGHJKLMNPQRSTUVWXYZabcdefghijkmnopqrstuvwxyz".data

/-- Character of a Base58 digit. -/
def digitChar (d : Nat) : Char := ALPHABET.getD d '1'

/-- Base58 digit of a character, `none` for a character outside the alphabet. -/
def charDigit (c : Char) : Option Nat :=
  let i := ALPHABET.indexOf c
  if i < 58 then some i else none

/-- Base58 digits of a string, `none` when a character is outside the alphabet. -/
def charDigits : List Char → Option (List Nat)
  | [] => some []
  | c :: cs =>
    match charDigit c, charDigits cs with
    | some d, some ds => some (d :: ds)
    | _, _ => none

/-- Modelled from the spec: `base58.encode` of the package base-58 (absent from src/), the
standard Bitcoin-alphabet encoding of a byte buffer: one `1` per leading zero byte, then the
base-58 digits of the big-endian value. -/
def base58.encode (buffer : List Nat) : String :=
  String.mk ((rebase 256 58 (2 * buffer.length) buffer).map digitChar)

/-- Modelled from the spec: `base58.decode` of the package base-58 (absent from src/), the
standard Bitcoin-alphabet decoding; `none` stands for the exception raised on a character
outside the alphabet. -/
def base58.decode (string : String) : Option (List Nat) :=
  match charDigits string.data with
  | none => none
  | some ds => some (rebase 58 256 ds.length ds)

/-! ## SHA-256 -/

/-- Rotation to the right of a 32-bit word. -/
def rotr (x n : Nat) : Nat := ((x >>> n) ||| (x <<< (32 - n))) % 2 ^ 32

/-- Round constants of SHA-256. -/
def K256 : List Nat :=
  [0x428a2f98, 0x71374491, 0xb5c0fbcf, 0xe9b5dba5, 0x3956c25b, 0x59f111f1, 0x923f82a4, 0xab1c5ed5,
   0xd807aa98, 0x12835b01, 0x243185be, 0x550c7dc3, 0x72be5d74, 0x80deb1fe, 0x9bdc06a7, 0xc19bf174,
   0xe49b69c1, 0xefbe4786, 0x0fc19dc6, 0x240ca1cc, 0x2de92c6f, 0x4a7484aa, 0x5cb0a9dc, 0x76f988da,
   0x983e5152, 0xa831c66d, 0xb00327c8, 0xbf597fc7, 0xc6e00bf3, 0xd5a79147, 0x06ca6351, 0x14292967,
   0x27b70a85, 0x2e1b2138, 0x4d2c6dfc, 0x53380d13, 0x650a7354, 0x766a0abb, 0x81c2c92e, 0x92722c85,
   0xa2bfe8a1, 0xa81a664b, 0xc24b8b70, 0xc76c51a3, 0xd192e819, 0xd6990624, 0xf40e3585, 0x106aa070,
   0x19a4c116, 0x1e376c08, 0x2748774c, 0x34b0bcb5, 0x391c0cb3, 0x4ed8aa4a, 0x5b9cca4f, 0x682e6ff3,
   0x748f82ee, 0x78a5636f, 0x84c87814, 0x8cc70208, 0x90befffa, 0xa4506ceb, 0xbef9a3f7, 0xc67178f2]

/-- Chaining value of SHA-256: eight 32-bit words. -/
structure HashState where
  a : Nat
  b : Nat
  c : Nat
  d : Nat
  e : Nat
  f : Nat
  g : Nat
  h : Nat

/-- Initial chaining value of SHA-256. -/
def H0 : HashState :=
  ⟨0x6a09e667, 0xbb67ae85, 0x3c6ef372, 0xa54ff53a, 0x510e527f, 0x9b05688c, 0x1f83d9ab, 0x5be0cd19⟩

/-- One round: the state after mixing in the round constant `k` and the schedule word `w`. -/
def round (s : HashState) (k w : Nat) : HashState :=
  let s1 := rotr s.e 6 ^^^ rotr s.e 11 ^^^ rotr s.e 25
  let ch := (s.e &&& s.f) ^^^ ((s.e ^^^ 0xffffffff) &&& s.g)
  let t1 := s.h + s1 + ch + k + w
  let s0 := rotr s.a 2 ^^^ rotr s.a 13 ^^^ rotr s.a 22
  let maj := (s.a &&& s.b) ^^^ (s.a &&& s.c) ^^^ (s.b &&& s.c)
  let t2 := s0 + maj
  ⟨(t1 + t2) % 2 ^ 32, s.a, s.b, s.c, (s.d + t1) % 2 ^ 32, s.e, s.f, s.g⟩

/-- Next word of the message schedule from the window of the sixteen latest words. -/
def nextWord (w : List Nat) : Nat :=
  let w1 := w.getD 1 0
  let w14 := w.getD 14 0
  let s0 := rotr w1 7 ^^^ rotr w1 18 ^^^ (w1 >>> 3)
  let s1 := rotr w14 17 ^^^ rotr w14 19 ^^^ (w14 >>> 10)
  (w.getD 0 0 + s0 + w.getD 9 0 + s1) % 2 ^ 32

/-- The rounds for the remaining constants `ks`; `w` is the window of the schedule starting at
the current round. -/
def rounds : List Nat → List Nat → HashState → HashState
  | [], _, s => s
  | k :: ks, w, s => rounds ks (w.tail ++ [nextWord w]) (round s k (w.getD 0 0))

/-- Big-endian 32-bit words of a block of bytes. -/
def toWords : Nat → List Nat → List Nat
  | 0, _ => []
  | n + 1, b => ofBE 256 (b.take 4) % 2 ^ 32 :: toWords n (b.drop 4)

/-- Compression of one 64-byte block into the chaining value. -/
def compress (s : HashState) (block : List Nat) : HashState :=
  let t := rounds K256 (toWords 16 block) s
  ⟨(s.a + t.a) % 2 ^ 32, (s.b + t.b) % 2 ^ 32, (s.c + t.c) % 2 ^ 32, (s.d + t.d) % 2 ^ 32,
   (s.e + t.e) % 2 ^ 32, (s.f + t.f) % 2 ^ 32, (s.g + t.g) % 2 ^ 32, (s.h + t.h) % 2 ^ 32⟩

/-- Compression of `n` consecutive 64-byte blocks. -/
def compressAll : Nat → List Nat → HashState → HashState
  | 0, _, s => s
  | n + 1, m, s => compressAll n (m.drop 64) (compress s (m.take 64))

/-- Big-endian bytes of a number, `n` of them. -/
def toBytesBE : Nat → Nat → List Nat
  | 0, _ => []
  | n + 1, x => x / 256 ^ n % 256 :: toBytesBE n x

/-- Padding of SHA-256: the bit 1, zeros up to 56 modulo 64, the bit length on 8 bytes. -/
def pad (m : List Nat) : List Nat :=
  m ++ [0x80] ++ List.replicate ((119 - m.length % 64) % 64) 0 ++ toBytesBE 8 (8 * m.length)

/-- SHA-256 of a byte string. -/
def sha256 (m : List Nat) : List Nat :=
  let p := pad m
  let s := compressAll (p.length / 64) p H0
  toBytesBE 4 s.a ++ toBytesBE 4 s.b ++ toBytesBE 4 s.c ++ toBytesBE 4 s.d ++
    toBytesBE 4 s.e ++ toBytesBE 4 s.f ++ toBytesBE 4 s.g ++ toBytesBE 4 s.h

/-- Modelled from the spec: `sha256d` of `./util` (absent from src/), the hash applied twice in
succession; the hash is SHA-256. -/
def sha256d (data : List Nat) : List Nat := sha256 (sha256 data)

/-! ## Constants of `./constant` -/

/-- Modelled from the spec: `FACTOID_PUBLIC_PREFIX` of `./constant` (absent from src/), the two
bytes 0x5fb1. -/
def FACTOID_PUBLIC_PREFIX : List Nat := [0x5f, 0xb1]

/-- Modelled from the spec: `FACTOID_PRIVATE_PREFIX` of `./constant` (absent from src/), the two
bytes 0x6478. -/
def FACTOID_PRIVATE_PREFIX : List Nat := [0x64, 0x78]

/-- Modelled from the spec: `ENTRYCREDIT_PUBLIC_PREFIX` of `./constant` (absent from src/), the
two bytes 0x592a. -/
def ENTRYCREDIT_PUBLIC_PREFIX : List Nat := [0x59, 0x2a]

/-- Modelled from the spec: `ENTRYCREDIT_PRIVATE_PREFIX` of `./constant` (absent from src/), the
two bytes 0x5db6. -/
def ENTRYCREDIT_PRIVATE_PREFIX : List Nat := [0x5d, 0xb6]

/-- Modelled from the spec: `VALID_PREFIXES` of `./constant` (absent from src/), the four known
prefix strings. -/
def VALID_PREFIXES : List String := ["Fs", "FA", "EC", "Es"]

/-- Modelled from the spec: `PUBLIC_ADDRESS_VALID_PREFIXES` of `./constant` (absent from src/),
the public prefix of each currency. -/
def PUBLIC_ADDRESS_VALID_PREFIXES : List String := ["FA", "EC"]

/-- Modelled from the spec: `PRIVATE_ADDRESS_VALID_PREFIXES` of `./constant` (absent from
src/), the private prefix of each currency. -/
def PRIVATE_ADDRESS_VALID_PREFIXES : List String := ["Fs", "Es"]

/-- Modelled from the spec: `EC_ADDRESS_VALID_PREFIXES` of `./constant` (absent from src/), the
two Entry-Credit prefixes. -/
def EC_ADDRESS_VALID_PREFIXES : List String := ["EC", "Es"]

/-- Modelled from the spec: `FCT_ADDRESS_VALID_PREFIXES` of `./constant` (absent from src/), the
two Factoid prefixes. -/
def FCT_ADDRESS_VALID_PREFIXES : List String := ["FA", "Fs"]

/-- Modelled from the spec: `RCD_TYPE_1` of `./constant` (absent from src/), the 1-byte tag of
RCD type 1. -/
def RCD_TYPE_1 : List Nat := [0x01]

/-! ## Strings and keys -/

/-- JavaScript `s.slice(start, end)` and `s.substring(start, end)` for `0 ≤ start ≤ end`. -/
def substring (s : String) (start stop : Nat) : String :=
  String.mk ((s.data.take stop).drop start)

/-- Errors thrown by the extraction and construction functions. -/
inductive Error where
  /-- The message "Invalid address ...". -/
  | invalidAddress (address : String)
  /-- The message "A public Factoid address does not hold a public key but a RCD hash. ...". -/
  | holdsRcdHash
  /-- The message "Address ... is not a valid public Factoid address". -/
  | notPublicFactoid (address : String)
  /-- The message "Key ... is not 32 bytes long.". -/
  | keyLength (keyBuffer : List Nat)
  /-- The exception of `base58.decode`, not caught. -/
  | base58Decode
  deriving DecidableEq, Repr

/-- A key argument of the encoders: a buffer, or a string read as hexadecimal. A JavaScript
string is a sequence of UTF-16 code units: `string` is a well-formed one, `units` is any
sequence of code units, a lone surrogate included. -/
inductive Key where
  | buffer (b : List Nat)
  | string (s : String)
  | units (u : List Nat)
  deriving DecidableEq, Repr

/-- UTF-16 code units of a character: one unit below U+10000, a surrogate pair from there. -/
def utf16Units (c : Char) : List Nat :=
  if c.toNat < 0x10000 then [c.toNat]
  else [0xD800 + (c.toNat - 0x10000) / 0x400, 0xDC00 + (c.toNat - 0x10000) % 0x400]

/-- UTF-16 code units of a string, which `Buffer.from(s, 'hex')` reads. -/
def jsUnits : List Char → List Nat
  | [] => []
  | c :: cs => utf16Units c ++ jsUnits cs

/-- Value of a hexadecimal digit given as a code unit. Node.js looks up the low byte of the
unit, so U+0130 is read as the character 0. -/
def hexValue (u : Nat) : Option Nat :=
  let x := u % 256
  if x ≥ 48 ∧ x ≤ 57 then some (x - 48)
  else if x ≥ 97 ∧ x ≤ 102 then some (x - 87)
  else if x ≥ 65 ∧ x ≤ 70 then some (x - 55)
  else none

/-- A code unit whose low byte is one of the characters 0-9, A-F, a-f. -/
def IsHexUnit (u : Nat) : Prop :=
  (48 ≤ u % 256 ∧ u % 256 ≤ 57) ∨ (65 ≤ u % 256 ∧ u % 256 ≤ 70) ∨
    (97 ≤ u % 256 ∧ u % 256 ≤ 102)

instance (u : Nat) : Decidable (IsHexUnit u) := by
  unfold IsHexUnit; infer_instance

/-- Bytes of a hexadecimal string as `Buffer.from(s, 'hex')` of Node.js reads them from its
code units: one byte per pair of hexadecimal digits, stopping at the first pair that is not
one; a last unit without partner is dropped. -/
def hexDecode : List Nat → List Nat
  | c1 :: c2 :: rest =>
    match hexValue c1, hexValue c2 with
    | some h, some l => (16 * h + l) :: hexDecode rest
    | _, _ => []
  | _ => []

/-- The call `Buffer.from(key, 'hex')`: a copy of a buffer, the decoding of a string. -/
def Buffer.fromHex (key : Key) : List Nat :=
  match key with
  | .buffer b => b
  | .string s => hexDecode (jsUnits s.data)
  | .units u => hexDecode u

/-! ## `addresses.js` -/

/-- `isValidAddress(address)`: the prefix test, the decoded length and the checksum; an
exception of the decoder is caught and gives `false`. -/
def isValidAddress (sha256d : List Nat → List Nat) (address : String) : Bool :=
  if !(VALID_PREFIXES.contains (substring address 0 2)) then
    false
  else
    match base58.decode address with
    | none => false
    | some bytes =>
      if bytes.length ≠ 38 then
        false
      else
        let checksum := slice (sha256d (slice bytes 0 34)) 0 4
        if checksum = slice bytes 34 38 then true else false

/-- `isValidPublicAddress(address)`. -/
def isValidPublicAddress (sha256d : List Nat → List Nat) (address : String) : Bool :=
  isValidAddress sha256d address && PUBLIC_ADDRESS_VALID_PREFIXES.contains (substring address 0 2)

/-- `isValidPrivateAddress(address)`. -/
def isValidPrivateAddress (sha256d : List Nat → List Nat) (address : String) : Bool :=
  isValidAddress sha256d address && PRIVATE_ADDRESS_VALID_PREFIXES.contains (substring address 0 2)

/-- `isValidEcAddress(address)`. -/
def isValidEcAddress (sha256d : List Nat → List Nat) (address : String) : Bool :=
  isValidAddress sha256d address && EC_ADDRESS_VALID_PREFIXES.contains (substring address 0 2)

/-- `isValidEcPublicAddress(address)`. -/
def isValidEcPublicAddress (sha256d : List Nat → List Nat) (address : String) : Bool :=
  isValidAddress sha256d address && substring address 0 2 == "EC"

/-- `isValidEcPrivateAddress(address)`. -/
def isValidEcPrivateAddress (sha256d : List Nat → List Nat) (address : String) : Bool :=
  isValidAddress sha256d address && substring address 0 2 == "Es"

/-- `isValidFctAddress(address)`. -/
def isValidFctAddress (sha256d : List Nat → List Nat) (address : String) : Bool :=
  isValidAddress sha256d address && FCT_ADDRESS_VALID_PREFIXES.contains (substring address 0 2)

/-- `isValidFctPublicAddress(address)`. -/
def isValidFctPublicAddress (sha256d : List Nat → List Nat) (address : String) : Bool :=
  isValidAddress sha256d address && substring address 0 2 == "FA"

/-- `isValidFctPrivateAddress(address)`. -/
def isValidFctPrivateAddress (sha256d : List Nat → List Nat) (address : String) : Bool :=
  isValidAddress sha256d address && substring address 0 2 == "Fs"

/-- `keyToRCD1Hash(key)`. -/
def keyToRCD1Hash (sha256d : List Nat → List Nat) (key : List Nat) : List Nat :=
  sha256d (RCD_TYPE_1 ++ key)

/-- `keyToAddress(key, prefix, computeRCDHash)`; an omitted `computeRCDHash` is `false`. -/
def keyToAddress (sha256d : List Nat → List Nat) (key : Key) (pfx : List Nat)
    (computeRCDHash : Bool) : Except Error String :=
  let keyBuffer := Buffer.fromHex key
  if keyBuffer.length ≠ 32 then
    .error (.keyLength keyBuffer)
  else
    let address := pfx ++ (if computeRCDHash then keyToRCD1Hash sha256d keyBuffer else keyBuffer)
    let checksum := slice (sha256d address) 0 4
    .ok (base58.encode (address ++ checksum))

/-- `keyToPublicFctAddress(key)`. -/
def keyToPublicFctAddress (sha256d : List Nat → List Nat) (key : Key) : Except Error String :=
  keyToAddress sha256d key FACTOID_PUBLIC_PREFIX true

/-- `rcdHashToPublicFctAddress(rcdHash)`. -/
def rcdHashToPublicFctAddress (sha256d : List Nat → List Nat) (rcdHash : Key) :
    Except Error String :=
  keyToAddress sha256d rcdHash FACTOID_PUBLIC_PREFIX false

/-- `keyToPrivateFctAddress(key)`. -/
def keyToPrivateFctAddress (sha256d : List Nat → List Nat) (key : Key) : Except Error String :=
  keyToAddress sha256d key FACTOID_PRIVATE_PREFIX false

/-- `keyToPublicEcAddress(key)`. -/
def keyToPublicEcAddress (sha256d : List Nat → List Nat) (key : Key) : Except Error String :=
  keyToAddress sha256d key ENTRYCREDIT_PUBLIC_PREFIX false

/-- `keyToPrivateEcAddress(key)`. -/
def keyToPrivateEcAddress (sha256d : List Nat → List Nat) (key : Key) : Except Error String :=
  keyToAddress sha256d key ENTRYCREDIT_PRIVATE_PREFIX false

/-- `addressToKey(address)`. -/
def addressToKey (sha256d : List Nat → List Nat) (address : String) :
    Except Error (List Nat) :=
  if !(isValidAddress sha256d address) then
    .error (.invalidAddress address)
  else if "FA".data.isPrefixOf address.data then
    .error .holdsRcdHash
  else
    match base58.decode address with
    | none => .error .base58Decode
    | some bytes => .ok (slice bytes 2 34)

/-- `addressToRcdHash(address)`. -/
def addressToRcdHash (sha256d : List Nat → List Nat) (address : String) :
    Except Error (List Nat) :=
  if !(isValidFctPublicAddress sha256d address) then
    .error (.notPublicFactoid address)
  else
    match base58.decode address with
    | none => .error .base58Decode
    | some bytes => .ok (slice bytes 2 34)

/-- `getPublicAddress(address)`; `secretToPublicKey` is the key derivation of `./util`. -/
def getPublicAddress (sha256d secretToPublicKey : List Nat → List Nat) (address : String) :
    Except Error String :=
  if !(isValidAddress sha256d address) then
    .error (.invalidAddress address)
  else if address.data.get? 1 ≠ some 's' then
    .ok address
  else
    match base58.decode address with
    | none => .error .base58Decode
    | some bytes =>
      let secret := slice bytes 2 34
      let pub := secretToPublicKey secret
      if address.data.get? 0 = some 'F' then keyToPublicFctAddress sha256d (.buffer pub)
      else keyToPublicEcAddress sha256d (.buffer pub)

/-! ## Auxiliary predicates of the proofs -/

/-- The two bytes `pfx` are a prefix under which every encoded 38-byte buffer is a string of 52
characters starting with `c1`, `c2`. -/
def PrefixLetters (pfx : List Nat) (c1 c2 : Char) : Prop :=
  pfx.length = 2 ∧ IsBytes pfx ∧
    ∀ r, IsBytes r → r.length = 36 →
      ∃ t, t.length = 50 ∧ (base58.encode (pfx ++ r)).data = c1 :: c2 :: t

/-- The 34 bytes `pfx ++ payload` followed by their 4-byte checksum. -/
def withChecksum (sha256d : List Nat → List Nat) (pfx payload : List Nat) : List Nat :=
  (pfx ++ payload) ++ slice (sha256d (pfx ++ payload)) 0 4

/-- The all-zero key of 32 bytes. -/
def zeroKey : List Nat := List.replicate 32 0

/-- A key derivation whose public keys are 32 bytes long. -/
def Returns32Bytes (secretToPublicKey : List Nat → List Nat) : Prop :=
  ∀ x, (secretToPublicKey x).length = 32 ∧ IsBytes (secretToPublicKey x)

/-- Hexadecimal digit of a value below 16, in upper or in lower case. -/
def hexDigit (upper : Bool) (d : Nat) : Char :=
  if d < 10 then Char.ofNat (48 + d)
  else if upper then Char.ofNat (55 + d)
  else Char.ofNat (87 + d)

/-- Characters of the hexadecimal string of a buffer: two digits per byte, the high one
first. -/
def hexChars (upper : Bool) : List Nat → List Char
  | [] => []
  | x :: xs => hexDigit upper (x / 16) :: hexDigit upper (x % 16) :: hexChars upper xs

/-- The hexadecimal string `hex(K)` of a buffer, in upper or in lower case. -/
def hex (upper : Bool) (K : List Nat) : String := String.mk (hexChars upper K)

/-- The string of 64 characters U+0130, whose code units all have the low byte of the
character 0. -/
def dotted64 : String := String.mk (List.replicate 64 (Char.ofNat 0x130))

/-- The private Factoid address of the all-zero key. -/
def zeroFs : String := "Fs1KWJrpLdfucvmYwN2nWrwepLn8ercpMbzXshd1g8zyhKXLVLWj"

/-- The public Entry-Credit address of the all-zero key. -/
def zeroEC : String := "EC1m9mouvUQeEidmqpUYpYtXg8fvTYi6GNHaKg8KMLbdMBrFfmUa"

/-- The private Entry-Credit address of the all-zero key. -/
def zeroEs : String := "Es2Rf7iM6PdsqfYCo3D1tnAR65SkLENyWJG1deUzpRMQmbh9F3eG"

/-- The 38 bytes of the private Factoid address of the all-zero key. -/
def zeroFsBytes : List Nat := FACTOID_PRIVATE_PREFIX ++ zeroKey ++ [15, 43, 72, 56]

/-- The 38 bytes of the public Entry-Credit address of the all-zero key. -/
def zeroECBytes : List Nat := ENTRYCREDIT_PUBLIC_PREFIX ++ zeroKey ++ [60, 244, 89, 95]

/-- The 38 bytes of the private Entry-Credit address of the all-zero key. -/
def zeroEsBytes : List Nat := ENTRYCREDIT_PRIVATE_PREFIX ++ zeroKey ++ [27, 173, 99, 233]

/-! ## Positional conversion: lemmas -/

theorem toLE_eq_digits (base : Nat) (hb : 2 ≤ base) :
    ∀ (fuel n : Nat), n < base ^ fuel → toLE base fuel n = Nat.digits base n := by
  intro fuel
  induction fuel with
  | zero =>
    intro n hn
    have h0 : n = 0 := by simpa using hn
    subst h0
    simp [toLE]
  | succ f ih =>
    intro n hn
    by_cases h0 : n = 0
    · subst h0
      simp [toLE]
    · have hdiv : n / base < base ^ f := by
        apply Nat.div_lt_of_lt_mul
        rw [pow_succ] at hn
        rw [Nat.mul_comm]
        exact hn
      rw [Nat.digits_def' (by omega) (Nat.pos_of_ne_zero h0)]
      simp [toLE, h0, ih _ hdiv]

theorem ofBE_append_singleton (base : Nat) (l : List Nat) (x : Nat) :
    ofBE base (l ++ [x]) = ofBE base l * base + x := by
  simp [ofBE, List.foldl_append]

theorem ofBE_eq_ofDigits (base : Nat) (l : List Nat) :
    ofBE base l = Nat.ofDigits base l.reverse := by
  induction l using List.reverseRecOn with
  | nil => simp [ofBE]
  | append_singleton l x ih =>
    rw [ofBE_append_singleton, ih, List.reverse_append]
    simp [Nat.ofDigits_cons]
    ring

theorem ofDigits_append_zeros (base : Nat) (l : List Nat) (k : Nat) :
    Nat.ofDigits base (l ++ List.replicate k 0) = Nat.ofDigits base l := by
  induction l with
  | nil =>
    induction k with
    | zero => simp
    | succ k ih =>
      simp only [List.nil_append] at ih
      simp [List.replicate_succ, Nat.ofDigits_cons, ih]
  | cons x l ih => simp [Nat.ofDigits_cons, ih]

theorem ofBE_zeros_append (base k : Nat) (R : List Nat) :
    ofBE base (List.replicate k 0 ++ R) = Nat.ofDigits base R.reverse := by
  rw [ofBE_eq_ofDigits, List.reverse_append, List.reverse_replicate, ofDigits_append_zeros]

theorem takeWhile_zeros_append (k : Nat) (R : List Nat) (hR : NoLeadingZero R) :
    (List.replicate k 0 ++ R).takeWhile (fun d => decide (d = 0)) = List.replicate k 0 := by
  induction k with
  | zero =>
    cases R with
    | nil => simp
    | cons x R =>
      have hx : x ≠ 0 := hR x (by simp)
      simp [List.takeWhile, hx]
  | succ k ih =>
    simp [List.replicate_succ, List.takeWhile, ih]

theorem exists_zeros_append (l : List Nat) :
    ∃ k R, l = List.replicate k 0 ++ R ∧ NoLeadingZero R := by
  induction l with
  | nil => exact ⟨0, [], by simp, by simp [NoLeadingZero]⟩
  | cons x l ih =>
    by_cases hx : x = 0
    · obtain ⟨k, R, hl, hR⟩ := ih
      exact ⟨k + 1, R, by simp [List.replicate_succ, hx, hl], hR⟩
    · exact ⟨0, x :: l, by simp, by simp [NoLeadingZero, hx]⟩

theorem rebase_zeros_append (s d f k : Nat) (R : List Nat) (hR : NoLeadingZero R)
    (hd : 2 ≤ d) (hf : Nat.ofDigits s R.reverse < d ^ f) :
    rebase s d f (List.replicate k 0 ++ R) =
      List.replicate k 0 ++ (Nat.digits d (Nat.ofDigits s R.reverse)).reverse := by
  unfold rebase
  rw [takeWhile_zeros_append k R hR, ofBE_zeros_append, toLE_eq_digits d hd f _ hf]
  simp

theorem noLeadingZero_digits_reverse (d n : Nat) :
    NoLeadingZero (Nat.digits d n).reverse := by
  intro h hh
  by_cases hn : n = 0
  · subst hn
    simp at hh
  · have hne : Nat.digits d n ≠ [] := Nat.digits_ne_nil_iff_ne_zero.mpr hn
    have hl := Nat.getLast_digit_ne_zero d hn
    rw [List.head?_reverse, List.getLast?_eq_getLast _ hne] at hh
    simp at hh
    rw [← hh]
    exact hl

theorem rebase_rebase (s d f1 f2 : Nat) (hs : 2 ≤ s) (hd : 2 ≤ d) (l : List Nat)
    (hl : ∀ x ∈ l, x < s) (hf1 : ofBE s l < d ^ f1) (hf2 : ofBE s l < s ^ f2) :
    rebase d s f2 (rebase s d f1 l) = l := by
  obtain ⟨k, R, rfl, hR⟩ := exists_zeros_append l
  rw [ofBE_zeros_append] at hf1 hf2
  rw [rebase_zeros_append s d f1 k R hR hd hf1]
  rw [rebase_zeros_append d s f2 k _ (noLeadingZero_digits_reverse d _) hs
    (by rw [List.reverse_reverse, Nat.ofDigits_digits]; exact hf2)]
  rw [List.reverse_reverse, Nat.ofDigits_digits]
  rw [Nat.digits_ofDigits s (by omega) R.reverse]
  · simp
  · intro x hx
    exact hl x (by simp at hx; simp [hx])
  · intro hne
    rw [List.getLast_reverse]
    exact hR _ (by cases R with
      | nil => simp at hne
      | cons y R => simp)

theorem toLE_lt (base : Nat) (hb : 0 < base) :
    ∀ (fuel n : Nat), ∀ x ∈ toLE base fuel n, x < base := by
  intro fuel
  induction fuel with
  | zero => intro n x hx; simp [toLE] at hx
  | succ f ih =>
    intro n x hx
    by_cases h0 : n = 0
    · simp [toLE, h0] at hx
    · simp only [toLE, h0, if_false, List.mem_cons] at hx
      rcases hx with hx | hx
      · rw [hx]; exact Nat.mod_lt _ hb
      · exact ih _ x hx

theorem rebase_lt (s d f : Nat) (hd : 0 < d) (l : List Nat) :
    ∀ x ∈ rebase s d f l, x < d := by
  intro x hx
  simp only [rebase, List.mem_append, List.mem_map, List.mem_reverse] at hx
  rcases hx with ⟨_, _, hx⟩ | hx
  · omega
  · exact toLE_lt d hd f _ x hx

theorem ofBE_lt_pow (s : Nat) (hs : 2 ≤ s) (l : List Nat) (hl : ∀ x ∈ l, x < s) :
    ofBE s l < s ^ l.length := by
  rw [ofBE_eq_ofDigits]
  have h := Nat.ofDigits_lt_base_pow_length (b := s) (l := l.reverse) (by omega)
    (by intro x hx; exact hl x (by simpa using hx))
  simpa using h

theorem ofBE_append (base : Nat) (l1 l2 : List Nat) :
    ofBE base (l1 ++ l2) = ofBE base l1 * base ^ l2.length + ofBE base l2 := by
  rw [ofBE_eq_ofDigits, ofBE_eq_ofDigits, ofBE_eq_ofDigits, List.reverse_append,
    Nat.ofDigits_append]
  simp
  ring

theorem ofBE_lt_pow_rebase_length (s d f1 : Nat) (hd : 2 ≤ d) (l : List Nat)
    (hf1 : ofBE s l < d ^ f1) : ofBE s l < d ^ (rebase s d f1 l).length := by
  obtain ⟨k, R, rfl, hR⟩ := exists_zeros_append l
  rw [ofBE_zeros_append] at hf1
  rw [rebase_zeros_append s d f1 k R hR hd hf1, ofBE_zeros_append]
  have h1 : Nat.ofDigits s R.reverse <
      d ^ (Nat.digits d (Nat.ofDigits s R.reverse)).length :=
    Nat.lt_base_pow_length_digits (by omega)
  refine lt_of_lt_of_le h1 (Nat.pow_le_pow_right (by omega) ?_)
  simp

theorem ofBE_rebase (s d f1 : Nat) (hd : 2 ≤ d) (l : List Nat)
    (hf1 : ofBE s l < d ^ f1) : ofBE d (rebase s d f1 l) = ofBE s l := by
  obtain ⟨k, R, rfl, hR⟩ := exists_zeros_append l
  rw [ofBE_zeros_append] at hf1
  rw [rebase_zeros_append s d f1 k R hR hd hf1, ofBE_zeros_append, ofBE_zeros_append,
    List.reverse_reverse, Nat.ofDigits_digits]

/-! ## Base58: lemmas -/

theorem charDigit_digitChar : ∀ d, d < 58 → charDigit (digitChar d) = some d := by
  decide

theorem digitChar_of_charDigit (c : Char) (d : Nat) (h : charDigit c = some d) :
    digitChar d = c ∧ d < 58 := by
  unfold charDigit at h
  simp only at h
  split at h
  · rename_i hlt
    simp only [Option.some.injEq] at h
    subst h
    refine ⟨?_, hlt⟩
    have hlen : ALPHABET.length = 58 := by decide
    have hl : List.indexOf c ALPHABET < ALPHABET.length := by omega
    unfold digitChar
    rw [List.getD_eq_getElem _ _ hl]
    exact List.indexOf_get hl
  · simp at h

theorem charDigits_map_digitChar (l : List Nat) (hl : ∀ x ∈ l, x < 58) :
    charDigits (l.map digitChar) = some l := by
  induction l with
  | nil => simp [charDigits]
  | cons x l ih =>
    have hx := charDigit_digitChar x (hl x (by simp))
    have ht := ih (fun y hy => hl y (by simp [hy]))
    simp [charDigits, hx, ht]

theorem map_digitChar_of_charDigits :
    ∀ (cs : List Char) (ds : List Nat), charDigits cs = some ds →
      ds.map digitChar = cs ∧ ∀ x ∈ ds, x < 58 := by
  intro cs
  induction cs with
  | nil =>
    intro ds h
    simp [charDigits] at h
    subst h
    simp
  | cons c cs ih =>
    intro ds h
    simp only [charDigits] at h
    split at h
    · rename_i d ds1 hc hcs
      simp only [Option.some.injEq] at h
      subst h
      obtain ⟨h1, h2⟩ := digitChar_of_charDigit c d hc
      obtain ⟨h3, h4⟩ := ih ds1 hcs
      refine ⟨by simp [h1, h3], ?_⟩
      intro x hx
      simp only [List.mem_cons] at hx
      rcases hx with hx | hx
      · rw [hx]; exact h2
      · exact h4 x hx
    · simp at h

theorem pow_256_le_pow_58 (n : Nat) : 256 ^ n ≤ 58 ^ (2 * n) := by
  rw [pow_mul]
  exact Nat.pow_le_pow_left (by norm_num) n

/-- Decoding undoes encoding, for every buffer. -/
theorem decode_encode (b : List Nat) (hb : IsBytes b) :
    base58.decode (base58.encode b) = some b := by
  have hv : ofBE 256 b < 256 ^ b.length := ofBE_lt_pow 256 (by norm_num) b hb
  have hf1 : ofBE 256 b < 58 ^ (2 * b.length) := lt_of_lt_of_le hv (pow_256_le_pow_58 _)
  have hlt := rebase_lt 256 58 (2 * b.length) (by norm_num) b
  have hf2 : ofBE 256 b < 256 ^ (rebase 256 58 (2 * b.length) b).length :=
    lt_of_lt_of_le (ofBE_lt_pow_rebase_length 256 58 _ (by norm_num) b hf1)
      (Nat.pow_le_pow_left (by norm_num) _)
  unfold base58.decode base58.encode
  simp only [charDigits_map_digitChar _ hlt]
  rw [rebase_rebase 256 58 _ _ (by norm_num) (by norm_num) b hb hf1 hf2]

/-- Encoding undoes decoding, for every string that decodes. -/
theorem encode_decode (a : String) (b : List Nat) (h : base58.decode a = some b) :
    base58.encode b = a := by
  unfold base58.decode at h
  split at h
  · simp at h
  · rename_i ds hds
    simp only [Option.some.injEq] at h
    obtain ⟨hmap, hlt⟩ := map_digitChar_of_charDigits _ _ hds
    have hv : ofBE 58 ds < 58 ^ ds.length := ofBE_lt_pow 58 (by norm_num) ds hlt
    have hf1 : ofBE 58 ds < 256 ^ ds.length :=
      lt_of_lt_of_le hv (Nat.pow_le_pow_left (by norm_num) _)
    have hf2 : ofBE 58 ds < 58 ^ (2 * (rebase 58 256 ds.length ds).length) :=
      lt_of_lt_of_le (ofBE_lt_pow_rebase_length 58 256 _ (by norm_num) ds hf1)
        (pow_256_le_pow_58 _)
    unfold base58.encode
    rw [← h, rebase_rebase 58 256 _ _ (by norm_num) (by norm_num) ds hlt hf1 hf2, hmap]

/-- The decoding of a string is a buffer of bytes. -/
theorem isBytes_of_decode (a : String) (b : List Nat) (h : base58.decode a = some b) :
    IsBytes b := by
  unfold base58.decode at h
  split at h
  · simp at h
  · simp only [Option.some.injEq] at h
    rw [← h]
    exact rebase_lt 58 256 _ (by norm_num) _

/-! ## Leading characters of an encoded address -/

theorem toLE_length_le (base : Nat) :
    ∀ (fuel n : Nat), (toLE base fuel n).length ≤ fuel := by
  intro fuel
  induction fuel with
  | zero => intro n; simp [toLE]
  | succ f ih =>
    intro n
    by_cases h0 : n = 0
    · simp [toLE, h0]
    · simp only [toLE, h0, if_false, List.length_cons]
      exact Nat.succ_le_succ (ih _)

theorem digits_length_le (b k r : Nat) (hb : 2 ≤ b) (hr : r < b ^ k) :
    (Nat.digits b r).length ≤ k := by
  rw [← toLE_eq_digits b hb k r hr]
  exact toLE_length_le b k r

/-- The most significant digits of a number between `q * b ^ k` and `(q + 1) * b ^ k` are the
digits of `q`, and `k` more digits follow. -/
theorem digits_reverse_leading (b k q v : Nat) (hb : 2 ≤ b) (hq : 0 < q)
    (hlo : q * b ^ k ≤ v) (hhi : v < (q + 1) * b ^ k) :
    ∃ X, X.length = k ∧ (Nat.digits b v).reverse = (Nat.digits b q).reverse ++ X := by
  have hpos : 0 < b ^ k := Nat.pow_pos (by omega)
  have hdiv : v / b ^ k = q := by
    apply Nat.div_eq_of_lt_le
    · exact hlo
    · exact hhi
  have hr : v % b ^ k < b ^ k := Nat.mod_lt _ hpos
  have hlen := digits_length_le b k (v % b ^ k) hb hr
  have hv : v = v % b ^ k +
      b ^ ((Nat.digits b (v % b ^ k)).length + (k - (Nat.digits b (v % b ^ k)).length)) * q := by
    rw [Nat.add_sub_cancel' hlen, ← hdiv]
    exact (Nat.mod_add_div v (b ^ k)).symm
  have hd := Nat.digits_append_zeroes_append_digits (b := b)
    (k := k - (Nat.digits b (v % b ^ k)).length) (m := q) (n := v % b ^ k) (by omega) hq
  rw [← hv] at hd
  refine ⟨(Nat.digits b (v % b ^ k) ++
    List.replicate (k - (Nat.digits b (v % b ^ k)).length) 0).reverse, ?_, ?_⟩
  · simp
    omega
  · rw [← hd]
    simp

/-- Encoding of a buffer whose first byte is not zero: the digits of its value. -/
theorem rebase_cons_ne_zero (p0 : Nat) (tl : List Nat) (hp : p0 ≠ 0) (f : Nat)
    (hf : ofBE 256 (p0 :: tl) < 58 ^ f) :
    rebase 256 58 f (p0 :: tl) = (Nat.digits 58 (ofBE 256 (p0 :: tl))).reverse := by
  unfold rebase
  rw [toLE_eq_digits 58 (by norm_num) f _ hf]
  simp [List.takeWhile, hp]

/-- An encoded 38-byte buffer with first bytes `p0`, `p1` starts with the two characters of the
digits of `q`, when the values with these first bytes lie between `q * 58 ^ 50` and
`(q + 1) * 58 ^ 50`; 50 more characters follow. -/
theorem encode_leading (p0 p1 q : Nat) (r : List Nat) (hr : IsBytes r) (hlen : r.length = 36)
    (hp0 : p0 ≠ 0) (hp0b : p0 < 256) (hp1b : p1 < 256) (hq : 0 < q)
    (hlo : q * 58 ^ 50 ≤ (p0 * 256 + p1) * 256 ^ 36)
    (hhi : (p0 * 256 + p1 + 1) * 256 ^ 36 ≤ (q + 1) * 58 ^ 50) :
    ∃ t, t.length = 50 ∧
      (base58.encode (p0 :: p1 :: r)).data = (Nat.digits 58 q).reverse.map digitChar ++ t := by
  have hb : IsBytes (p0 :: p1 :: r) := by
    intro x hx
    simp only [List.mem_cons] at hx
    rcases hx with hx | hx | hx
    · omega
    · omega
    · exact hr x hx
  have hrv : ofBE 256 r < 256 ^ 36 := by
    have := ofBE_lt_pow 256 (by norm_num) r hr
    rwa [hlen] at this
  have hval : ofBE 256 (p0 :: p1 :: r) = (p0 * 256 + p1) * 256 ^ 36 + ofBE 256 r := by
    have := ofBE_append 256 [p0, p1] r
    simp only [List.cons_append, List.nil_append, hlen] at this
    rw [this]
    simp [ofBE]
  have hv : ofBE 256 (p0 :: p1 :: r) < 256 ^ (p0 :: p1 :: r).length :=
    ofBE_lt_pow 256 (by norm_num) _ hb
  have hf : ofBE 256 (p0 :: p1 :: r) < 58 ^ (2 * (p0 :: p1 :: r).length) :=
    lt_of_lt_of_le hv (pow_256_le_pow_58 _)
  obtain ⟨X, hX, hD⟩ := digits_reverse_leading 58 50 q (ofBE 256 (p0 :: p1 :: r))
    (by norm_num) hq (by rw [hval]; omega) (by rw [hval]; omega)
  refine ⟨X.map digitChar, by simp [hX], ?_⟩
  unfold base58.encode
  rw [rebase_cons_ne_zero p0 (p1 :: r) hp0 _ hf, hD]
  simp

theorem encode_ec_public (r : List Nat) (hr : IsBytes r) (hlen : r.length = 36) :
    ∃ t, t.length = 50 ∧
      (base58.encode (ENTRYCREDIT_PUBLIC_PREFIX ++ r)).data = 'E' :: 'C' :: t := by
  obtain ⟨t, ht, h⟩ := encode_leading 0x59 0x2a 765 r hr hlen (by decide) (by decide)
    (by decide) (by decide) (by decide) (by decide)
  refine ⟨t, ht, ?_⟩
  have hd : Nat.digits 58 765 = [11, 13] := by norm_num
  rw [hd] at h
  exact h

theorem encode_ec_private (r : List Nat) (hr : IsBytes r) (hlen : r.length = 36) :
    ∃ t, t.length = 50 ∧
      (base58.encode (ENTRYCREDIT_PRIVATE_PREFIX ++ r)).data = 'E' :: 's' :: t := by
  obtain ⟨t, ht, h⟩ := encode_leading 0x5d 0xb6 804 r hr hlen (by decide) (by decide)
    (by decide) (by decide) (by decide) (by decide)
  refine ⟨t, ht, ?_⟩
  have hd : Nat.digits 58 804 = [50, 13] := by norm_num
  rw [hd] at h
  exact h

theorem encode_fct_public (r : List Nat) (hr : IsBytes r) (hlen : r.length = 36) :
    ∃ t, t.length = 50 ∧
      (base58.encode (FACTOID_PUBLIC_PREFIX ++ r)).data = 'F' :: 'A' :: t := by
  obtain ⟨t, ht, h⟩ := encode_leading 0x5f 0xb1 821 r hr hlen (by decide) (by decide)
    (by decide) (by decide) (by decide) (by decide)
  refine ⟨t, ht, ?_⟩
  have hd : Nat.digits 58 821 = [9, 14] := by norm_num
  rw [hd] at h
  exact h

theorem encode_fct_private (r : List Nat) (hr : IsBytes r) (hlen : r.length = 36) :
    ∃ t, t.length = 50 ∧
      (base58.encode (FACTOID_PRIVATE_PREFIX ++ r)).data = 'F' :: 's' :: t := by
  obtain ⟨t, ht, h⟩ := encode_leading 0x64 0x78 862 r hr hlen (by decide) (by decide)
    (by decide) (by decide) (by decide) (by decide)
  refine ⟨t, ht, ?_⟩
  have hd : Nat.digits 58 862 = [50, 14] := by norm_num
  rw [hd] at h
  exact h

/-! ## The hash -/

theorem toBytesBE_length (n x : Nat) : (toBytesBE n x).length = n := by
  induction n with
  | zero => simp [toBytesBE]
  | succ n ih => simp [toBytesBE, ih]

theorem toBytesBE_isBytes (n x : Nat) : IsBytes (toBytesBE n x) := by
  induction n with
  | zero => intro y hy; simp [toBytesBE] at hy
  | succ n ih =>
    intro y hy
    simp only [toBytesBE, List.mem_cons] at hy
    rcases hy with hy | hy
    · rw [hy]; exact Nat.mod_lt _ (by norm_num)
    · exact ih y hy

theorem isBytes_append (a b : List Nat) (ha : IsBytes a) (hb : IsBytes b) : IsBytes (a ++ b) := by
  intro x hx
  rcases List.mem_append.mp hx with h | h
  · exact ha x h
  · exact hb x h

theorem sha256_length (m : List Nat) : (sha256 m).length = 32 := by
  simp [sha256, toBytesBE_length]

theorem sha256_isBytes (m : List Nat) : IsBytes (sha256 m) := by
  unfold sha256
  simp only
  repeat first
    | exact toBytesBE_isBytes _ _
    | apply isBytes_append

/-- The double SHA-256 has digests of 32 bytes. -/
theorem sha256d_isDigest32 : IsDigest32 sha256d :=
  fun _ => ⟨sha256_length _, sha256_isBytes _⟩

/-! ## Slices -/

theorem slice_append_left (a c : List α) (n : Nat) (h : a.length = n) :
    slice (a ++ c) 0 n = a := by
  subst h
  simp [slice]

theorem slice_append_right (a c : List α) (n m : Nat) (h : a.length = n) (hc : c.length = m) :
    slice (a ++ c) n (n + m) = c := by
  subst h hc
  simp [slice, List.take_append]

theorem slice_payload (p k c : List α) (hp : p.length = 2) (hk : k.length = 32) :
    slice ((p ++ k) ++ c) 2 34 = k := by
  have h34 : (p ++ k).length = 34 := by simp [hp, hk]
  have h1 : List.take 34 ((p ++ k) ++ c) = p ++ k := List.take_left' h34
  unfold slice
  rw [h1]
  exact List.drop_left' hp

theorem slice_length (b : List α) (i j : Nat) (hj : j ≤ b.length) :
    (slice b i j).length = j - i := by
  simp [slice, Nat.min_eq_left hj]

theorem isBytes_slice (b : List Nat) (i j : Nat) (hb : IsBytes b) : IsBytes (slice b i j) := by
  intro x hx
  exact hb x (List.mem_of_mem_take (List.mem_of_mem_drop hx))

/-! ## Encoded addresses -/

theorem prefixLetters_ec_public : PrefixLetters ENTRYCREDIT_PUBLIC_PREFIX 'E' 'C' :=
  ⟨rfl, by decide, encode_ec_public⟩

theorem prefixLetters_ec_private : PrefixLetters ENTRYCREDIT_PRIVATE_PREFIX 'E' 's' :=
  ⟨rfl, by decide, encode_ec_private⟩

theorem prefixLetters_fct_public : PrefixLetters FACTOID_PUBLIC_PREFIX 'F' 'A' :=
  ⟨rfl, by decide, encode_fct_public⟩

theorem prefixLetters_fct_private : PrefixLetters FACTOID_PRIVATE_PREFIX 'F' 's' :=
  ⟨rfl, by decide, encode_fct_private⟩

theorem substring_of_data (s : String) (c1 c2 : Char) (t : List Char)
    (h : s.data = c1 :: c2 :: t) : substring s 0 2 = String.mk [c1, c2] := by
  simp [substring, h]

theorem withChecksum_props (H : List Nat → List Nat) (hH : IsDigest32 H) (pfx P : List Nat)
    (hp : pfx.length = 2) (hpb : IsBytes pfx) (hP : IsBytes P) (hlen : P.length = 32) :
    IsBytes (withChecksum H pfx P) ∧ (withChecksum H pfx P).length = 38 ∧
      slice (withChecksum H pfx P) 0 34 = pfx ++ P ∧
      slice (withChecksum H pfx P) 34 38 = slice (H (pfx ++ P)) 0 4 ∧
      slice (withChecksum H pfx P) 2 34 = P := by
  have h34 : (pfx ++ P).length = 34 := by simp [hp, hlen]
  have h4 : (slice (H (pfx ++ P)) 0 4).length = 4 := by
    rw [slice_length _ _ _ (by rw [(hH _).1]; norm_num)]
  refine ⟨?_, ?_, ?_, ?_, ?_⟩
  · exact isBytes_append _ _ (isBytes_append _ _ hpb hP) (isBytes_slice _ _ _ (hH _).2)
  · simp [withChecksum, h4, hp, hlen]
  · exact slice_append_left _ _ 34 h34
  · exact slice_append_right _ _ 34 4 h34 h4
  · exact slice_payload _ _ _ hp hlen

theorem keyToAddress_plain (H : List Nat → List Nat) (K pfx : List Nat)
    (hlen : K.length = 32) :
    keyToAddress H (.buffer K) pfx false = .ok (base58.encode (withChecksum H pfx K)) := by
  simp [keyToAddress, Buffer.fromHex, hlen, withChecksum]

theorem keyToAddress_rcd (H : List Nat → List Nat) (K pfx : List Nat)
    (hlen : K.length = 32) :
    keyToAddress H (.buffer K) pfx true =
      .ok (base58.encode (withChecksum H pfx (keyToRCD1Hash H K))) := by
  simp [keyToAddress, Buffer.fromHex, hlen, withChecksum]

/-- The encoding of a prefixed payload with its checksum decodes to the same 38 bytes, starts
with the letters of the prefix and is a valid address. -/
theorem encoded_valid (H : List Nat → List Nat) (hH : IsDigest32 H) (pfx : List Nat)
    (c1 c2 : Char) (hp : PrefixLetters pfx c1 c2) (hv : String.mk [c1, c2] ∈ VALID_PREFIXES)
    (P : List Nat) (hP : IsBytes P) (hlen : P.length = 32) :
    base58.decode (base58.encode (withChecksum H pfx P)) = some (withChecksum H pfx P) ∧
      substring (base58.encode (withChecksum H pfx P)) 0 2 = String.mk [c1, c2] ∧
      isValidAddress H (base58.encode (withChecksum H pfx P)) = true := by
  obtain ⟨hp2, hpb, hlet⟩ := hp
  obtain ⟨hb, hl, hs1, hs2, _⟩ := withChecksum_props H hH pfx P hp2 hpb hP hlen
  have hdec := decode_encode _ hb
  have h4 : (slice (H (pfx ++ P)) 0 4).length = 4 := by
    rw [slice_length _ _ _ (by rw [(hH _).1]; norm_num)]
  obtain ⟨t, _, ht⟩ := hlet (P ++ slice (H (pfx ++ P)) 0 4)
    (isBytes_append _ _ hP (isBytes_slice _ _ _ (hH _).2)) (by simp [hlen, h4])
  have hsub : substring (base58.encode (withChecksum H pfx P)) 0 2 = String.mk [c1, c2] := by
    apply substring_of_data _ _ _ t
    rw [← ht, withChecksum, List.append_assoc]
  refine ⟨hdec, hsub, ?_⟩
  unfold isValidAddress
  simp [hsub, hv, hdec, hl, hs1, hs2]

theorem startsWith_iff_substring (a : String) (c1 c2 : Char) :
    [c1, c2].isPrefixOf a.data = true ↔ substring a 0 2 = String.mk [c1, c2] := by
  rcases a with ⟨l⟩
  rcases l with _ | ⟨x, _ | ⟨y, l⟩⟩ <;> simp [substring, List.isPrefixOf, String.ext_iff]
  constructor <;> rintro ⟨rfl, rfl⟩ <;> exact ⟨rfl, rfl⟩

theorem rcd1Hash_props (H : List Nat → List Nat) (hH : IsDigest32 H) (K : List Nat) :
    IsBytes (keyToRCD1Hash H K) ∧ (keyToRCD1Hash H K).length = 32 :=
  ⟨(hH _).2, (hH _).1⟩

theorem addressToKey_encoded (H : List Nat → List Nat) (hH : IsDigest32 H) (pfx : List Nat)
    (c1 c2 : Char) (hp : PrefixLetters pfx c1 c2) (hv : String.mk [c1, c2] ∈ VALID_PREFIXES)
    (hne : String.mk [c1, c2] ≠ String.mk ['F', 'A'])
    (P : List Nat) (hP : IsBytes P) (hlen : P.length = 32) :
    addressToKey H (base58.encode (withChecksum H pfx P)) = .ok P := by
  obtain ⟨hdec, hsub, hval⟩ := encoded_valid H hH pfx c1 c2 hp hv P hP hlen
  obtain ⟨_, _, _, _, hs⟩ := withChecksum_props H hH pfx P hp.1 hp.2.1 hP hlen
  have hfa : ("FA".data.isPrefixOf (base58.encode (withChecksum H pfx P)).data) = false := by
    rw [Bool.eq_false_iff]
    intro h
    have h2 := (startsWith_iff_substring _ 'F' 'A').mp h
    rw [hsub] at h2
    exact hne h2
  unfold addressToKey
  simp [hval, hfa, hdec, hs]

theorem isValidFctPublicAddress_encoded (H : List Nat → List Nat) (hH : IsDigest32 H)
    (P : List Nat) (hP : IsBytes P) (hlen : P.length = 32) :
    isValidFctPublicAddress H (base58.encode (withChecksum H FACTOID_PUBLIC_PREFIX P)) = true := by
  obtain ⟨_, hsub, hval⟩ := encoded_valid H hH _ 'F' 'A' prefixLetters_fct_public
    (by decide) P hP hlen
  unfold isValidFctPublicAddress
  rw [hval, hsub]
  decide

theorem addressToRcdHash_encoded (H : List Nat → List Nat) (hH : IsDigest32 H)
    (P : List Nat) (hP : IsBytes P) (hlen : P.length = 32) :
    addressToRcdHash H (base58.encode (withChecksum H FACTOID_PUBLIC_PREFIX P)) = .ok P := by
  obtain ⟨hdec, _, _⟩ := encoded_valid H hH _ 'F' 'A' prefixLetters_fct_public
    (by decide) P hP hlen
  obtain ⟨_, _, _, _, hs⟩ := withChecksum_props H hH FACTOID_PUBLIC_PREFIX P rfl (by decide)
    hP hlen
  unfold addressToRcdHash
  simp [isValidFctPublicAddress_encoded H hH P hP hlen, hdec, hs]

/-! ## Validity -/

/-- What `isValidAddress` computes, as a proposition. -/
theorem isValidAddress_iff (H : List Nat → List Nat) (a : String) :
    isValidAddress H a = true ↔
      substring a 0 2 ∈ VALID_PREFIXES ∧
      ∃ b, base58.decode a = some b ∧ b.length = 38 ∧
        slice (H (slice b 0 34)) 0 4 = slice b 34 38 := by
  unfold isValidAddress
  by_cases hp : substring a 0 2 ∈ VALID_PREFIXES
  · cases hd : base58.decode a with
    | none => simp [hp]
    | some b =>
      by_cases hl : b.length = 38
      · simp [hp, hl]
      · simp [hp, hl]
  · simp [hp]

theorem charDigit_eq_none (c : Char) (hc : c ∉ ALPHABET) : charDigit c = none := by
  have hlen : ALPHABET.length = 58 := by decide
  have h : ¬ List.indexOf c ALPHABET < 58 := by
    intro hlt
    exact hc (List.indexOf_lt_length.mp (by omega))
  simp [charDigit, h]

theorem charDigits_eq_none (cs : List Char) (h : ∃ c ∈ cs, c ∉ ALPHABET) :
    charDigits cs = none := by
  induction cs with
  | nil => simp at h
  | cons x cs ih =>
    obtain ⟨c, hc, hn⟩ := h
    simp only [List.mem_cons] at hc
    rcases hc with hc | hc
    · subst hc
      simp [charDigits, charDigit_eq_none c hn]
    · have := ih ⟨c, hc, hn⟩
      simp only [charDigits, this]
      split <;> simp_all

/-- The decoder raises on a string with a character outside the alphabet. -/
theorem decode_eq_none (a : String) (h : ∃ c ∈ a.data, c ∉ ALPHABET) :
    base58.decode a = none := by
  simp [base58.decode, charDigits_eq_none a.data h]

/-- A valid address whose decoding starts with a prefix constant starts with the letters of
that constant. -/
theorem letters_of_prefix_bytes (a : String) (b : List Nat) (hdec : base58.decode a = some b)
    (hlen : b.length = 38) (pfx : List Nat) (c1 c2 : Char) (hp : PrefixLetters pfx c1 c2)
    (hs : slice b 0 2 = pfx) : substring a 0 2 = String.mk [c1, c2] := by
  have hb := isBytes_of_decode a b hdec
  have henc := encode_decode a b hdec
  have hsplit : b = pfx ++ b.drop 2 := by
    rw [← hs]
    simp [slice]
  obtain ⟨t, _, ht⟩ := hp.2.2 (b.drop 2) (fun x hx => hb x (List.mem_of_mem_drop hx))
    (by simp [hlen])
  rw [← hsplit, henc] at ht
  exact substring_of_data a c1 c2 t ht

/-! ## The claims -/

/-- C1: for every 32-byte key `K` and every hash with 32-byte digests, each of the five
encoders returns a string, and `isValidAddress` accepts it. -/
theorem encoded_addresses_are_valid (H : List Nat → List Nat) (hH : IsDigest32 H)
    (K : List Nat) (hK : IsBytes K) (hlen : K.length = 32) :
    (∃ s, keyToPublicFctAddress H (.buffer K) = .ok s ∧ isValidAddress H s = true) ∧
    (∃ s, rcdHashToPublicFctAddress H (.buffer K) = .ok s ∧ isValidAddress H s = true) ∧
    (∃ s, keyToPrivateFctAddress H (.buffer K) = .ok s ∧ isValidAddress H s = true) ∧
    (∃ s, keyToPublicEcAddress H (.buffer K) = .ok s ∧ isValidAddress H s = true) ∧
    (∃ s, keyToPrivateEcAddress H (.buffer K) = .ok s ∧ isValidAddress H s = true) := by
  obtain ⟨hRb, hRl⟩ := rcd1Hash_props H hH K
  refine ⟨⟨_, keyToAddress_rcd H K _ hlen, ?_⟩, ⟨_, keyToAddress_plain H K _ hlen, ?_⟩,
    ⟨_, keyToAddress_plain H K _ hlen, ?_⟩, ⟨_, keyToAddress_plain H K _ hlen, ?_⟩,
    ⟨_, keyToAddress_plain H K _ hlen, ?_⟩⟩
  · exact (encoded_valid H hH _ 'F' 'A' prefixLetters_fct_public (by decide) _ hRb hRl).2.2
  · exact (encoded_valid H hH _ 'F' 'A' prefixLetters_fct_public (by decide) _ hK hlen).2.2
  · exact (encoded_valid H hH _ 'F' 's' prefixLetters_fct_private (by decide) _ hK hlen).2.2
  · exact (encoded_valid H hH _ 'E' 'C' prefixLetters_ec_public (by decide) _ hK hlen).2.2
  · exact (encoded_valid H hH _ 'E' 's' prefixLetters_ec_private (by decide) _ hK hlen).2.2

/-- Witness of C1: the all-zero key under the double SHA-256. -/
theorem encoded_addresses_are_valid_witness :
    IsDigest32 sha256d ∧ IsBytes zeroKey ∧ zeroKey.length = 32 ∧
    (∃ s, keyToPublicFctAddress sha256d (.buffer zeroKey) = .ok s ∧
      isValidAddress sha256d s = true) ∧
    (∃ s, rcdHashToPublicFctAddress sha256d (.buffer zeroKey) = .ok s ∧
      isValidAddress sha256d s = true) ∧
    (∃ s, keyToPrivateFctAddress sha256d (.buffer zeroKey) = .ok s ∧
      isValidAddress sha256d s = true) ∧
    (∃ s, keyToPublicEcAddress sha256d (.buffer zeroKey) = .ok s ∧
      isValidAddress sha256d s = true) ∧
    (∃ s, keyToPrivateEcAddress sha256d (.buffer zeroKey) = .ok s ∧
      isValidAddress sha256d s = true) :=
  ⟨sha256d_isDigest32, by decide, by decide,
    encoded_addresses_are_valid sha256d sha256d_isDigest32 zeroKey (by decide) (by decide)⟩

/-- C2: for every 32-byte buffer `K`, `addressToKey` returns `K` on the private Factoid, public
Entry-Credit and private Entry-Credit addresses of `K`, and `addressToRcdHash` returns `K` on
`rcdHashToPublicFctAddress(K)`; none of the calls fails. -/
theorem extraction_undoes_encoding (H : List Nat → List Nat) (hH : IsDigest32 H)
    (K : List Nat) (hK : IsBytes K) (hlen : K.length = 32) :
    (∃ s, keyToPrivateFctAddress H (.buffer K) = .ok s ∧ addressToKey H s = .ok K) ∧
    (∃ s, keyToPublicEcAddress H (.buffer K) = .ok s ∧ addressToKey H s = .ok K) ∧
    (∃ s, keyToPrivateEcAddress H (.buffer K) = .ok s ∧ addressToKey H s = .ok K) ∧
    (∃ s, rcdHashToPublicFctAddress H (.buffer K) = .ok s ∧ addressToRcdHash H s = .ok K) := by
  refine ⟨⟨_, keyToAddress_plain H K _ hlen, ?_⟩, ⟨_, keyToAddress_plain H K _ hlen, ?_⟩,
    ⟨_, keyToAddress_plain H K _ hlen, ?_⟩, ⟨_, keyToAddress_plain H K _ hlen, ?_⟩⟩
  · exact addressToKey_encoded H hH _ 'F' 's' prefixLetters_fct_private (by decide) (by decide)
      K hK hlen
  · exact addressToKey_encoded H hH _ 'E' 'C' prefixLetters_ec_public (by decide) (by decide)
      K hK hlen
  · exact addressToKey_encoded H hH _ 'E' 's' prefixLetters_ec_private (by decide) (by decide)
      K hK hlen
  · exact addressToRcdHash_encoded H hH K hK hlen

/-- Witness of C2: the all-zero key under the double SHA-256. -/
theorem extraction_undoes_encoding_witness :
    IsDigest32 sha256d ∧ IsBytes zeroKey ∧ zeroKey.length = 32 ∧
    (∃ s, keyToPrivateFctAddress sha256d (.buffer zeroKey) = .ok s ∧
      addressToKey sha256d s = .ok zeroKey) ∧
    (∃ s, keyToPublicEcAddress sha256d (.buffer zeroKey) = .ok s ∧
      addressToKey sha256d s = .ok zeroKey) ∧
    (∃ s, keyToPrivateEcAddress sha256d (.buffer zeroKey) = .ok s ∧
      addressToKey sha256d s = .ok zeroKey) ∧
    (∃ s, rcdHashToPublicFctAddress sha256d (.buffer zeroKey) = .ok s ∧
      addressToRcdHash sha256d s = .ok zeroKey) :=
  ⟨sha256d_isDigest32, by decide, by decide,
    extraction_undoes_encoding sha256d sha256d_isDigest32 zeroKey (by decide) (by decide)⟩

/-- Counterexample of C3: a string that `isValidAddress` and `isValidEcPublicAddress` accept
under the double SHA-256, whose decoding starts with the bytes 0x59 0x2b, none of the four
prefix constants. -/
theorem valid_address_with_other_prefix_bytes :
    isValidAddress sha256d "EC3htx3MxKqKTrTMYj4ApWD8T3nYBCQw99veRvH1FLFdjgVSaTBv" = true ∧
    isValidEcPublicAddress sha256d "EC3htx3MxKqKTrTMYj4ApWD8T3nYBCQw99veRvH1FLFdjgVSaTBv" = true ∧
    (base58.decode "EC3htx3MxKqKTrTMYj4ApWD8T3nYBCQw99veRvH1FLFdjgVSaTBv").map
      (fun b => slice b 0 2) = some [0x59, 0x2b] ∧
    [0x59, 0x2b] ∉ [ENTRYCREDIT_PUBLIC_PREFIX, ENTRYCREDIT_PRIVATE_PREFIX,
      FACTOID_PUBLIC_PREFIX, FACTOID_PRIVATE_PREFIX] := by
  decide!

/-- C3, amended: a string accepted by `isValidAddress` starts with one of the four letter pairs
and decodes to 38 bytes; when the first two of these bytes are one of the four prefix
constants, the class predicate of that constant holds. -/
theorem valid_address_prefix (H : List Nat → List Nat) (a : String)
    (h : isValidAddress H a = true) :
    substring a 0 2 ∈ ["EC", "Es", "FA", "Fs"] ∧
    ∃ b, base58.decode a = some b ∧ b.length = 38 ∧
      (slice b 0 2 = ENTRYCREDIT_PUBLIC_PREFIX → isValidEcPublicAddress H a = true) ∧
      (slice b 0 2 = ENTRYCREDIT_PRIVATE_PREFIX → isValidEcPrivateAddress H a = true) ∧
      (slice b 0 2 = FACTOID_PUBLIC_PREFIX → isValidFctPublicAddress H a = true) ∧
      (slice b 0 2 = FACTOID_PRIVATE_PREFIX → isValidFctPrivateAddress H a = true) := by
  obtain ⟨hp, b, hdec, hlen, _⟩ := (isValidAddress_iff H a).mp h
  refine ⟨?_, b, hdec, hlen, ?_, ?_, ?_, ?_⟩
  · simp only [VALID_PREFIXES, List.mem_cons, List.mem_singleton, List.not_mem_nil,
      or_false] at hp ⊢
    tauto
  · intro hs
    have := letters_of_prefix_bytes a b hdec hlen _ 'E' 'C' prefixLetters_ec_public hs
    unfold isValidEcPublicAddress
    rw [h, this]
    decide
  · intro hs
    have := letters_of_prefix_bytes a b hdec hlen _ 'E' 's' prefixLetters_ec_private hs
    unfold isValidEcPrivateAddress
    rw [h, this]
    decide
  · intro hs
    have := letters_of_prefix_bytes a b hdec hlen _ 'F' 'A' prefixLetters_fct_public hs
    unfold isValidFctPublicAddress
    rw [h, this]
    decide
  · intro hs
    have := letters_of_prefix_bytes a b hdec hlen _ 'F' 's' prefixLetters_fct_private hs
    unfold isValidFctPrivateAddress
    rw [h, this]
    decide

/-- Witness of C3, amended: the public Entry-Credit address of the all-zero key. -/
theorem valid_address_prefix_witness :
    isValidAddress sha256d "EC1m9mouvUQeEidmqpUYpYtXg8fvTYi6GNHaKg8KMLbdMBrFfmUa" = true ∧
    substring "EC1m9mouvUQeEidmqpUYpYtXg8fvTYi6GNHaKg8KMLbdMBrFfmUa" 0 2 ∈
      ["EC", "Es", "FA", "Fs"] ∧
    ∃ b, base58.decode "EC1m9mouvUQeEidmqpUYpYtXg8fvTYi6GNHaKg8KMLbdMBrFfmUa" = some b ∧
      b.length = 38 ∧
      (slice b 0 2 = ENTRYCREDIT_PUBLIC_PREFIX → isValidEcPublicAddress sha256d
        "EC1m9mouvUQeEidmqpUYpYtXg8fvTYi6GNHaKg8KMLbdMBrFfmUa" = true) ∧
      (slice b 0 2 = ENTRYCREDIT_PRIVATE_PREFIX → isValidEcPrivateAddress sha256d
        "EC1m9mouvUQeEidmqpUYpYtXg8fvTYi6GNHaKg8KMLbdMBrFfmUa" = true) ∧
      (slice b 0 2 = FACTOID_PUBLIC_PREFIX → isValidFctPublicAddress sha256d
        "EC1m9mouvUQeEidmqpUYpYtXg8fvTYi6GNHaKg8KMLbdMBrFfmUa" = true) ∧
      (slice b 0 2 = FACTOID_PRIVATE_PREFIX → isValidFctPrivateAddress sha256d
        "EC1m9mouvUQeEidmqpUYpYtXg8fvTYi6GNHaKg8KMLbdMBrFfmUa" = true) :=
  ⟨by decide!, valid_address_prefix sha256d
    "EC1m9mouvUQeEidmqpUYpYtXg8fvTYi6GNHaKg8KMLbdMBrFfmUa" (by decide!)⟩

/-- C4: for every 32-byte payload `P` and 4-byte checksum `c`, the Base58 encoding of
prefix ++ `P` ++ `c` starts with "EC", "Es", "FA", "Fs" for the public Entry-Credit, private
Entry-Credit, public Factoid and private Factoid prefix; and the output of every encoder on a
32-byte key `K` starts with the two characters of its prefix. -/
theorem prefix_letters (P c : List Nat) (hP : IsBytes P) (hPl : P.length = 32)
    (hc : IsBytes c) (hcl : c.length = 4)
    (H : List Nat → List Nat) (hH : IsDigest32 H)
    (K : List Nat) (hK : IsBytes K) (hKl : K.length = 32) :
    (substring (base58.encode (ENTRYCREDIT_PUBLIC_PREFIX ++ P ++ c)) 0 2 = "EC" ∧
     substring (base58.encode (ENTRYCREDIT_PRIVATE_PREFIX ++ P ++ c)) 0 2 = "Es" ∧
     substring (base58.encode (FACTOID_PUBLIC_PREFIX ++ P ++ c)) 0 2 = "FA" ∧
     substring (base58.encode (FACTOID_PRIVATE_PREFIX ++ P ++ c)) 0 2 = "Fs") ∧
    (∃ s, keyToPublicEcAddress H (.buffer K) = .ok s ∧ substring s 0 2 = "EC") ∧
    (∃ s, keyToPrivateEcAddress H (.buffer K) = .ok s ∧ substring s 0 2 = "Es") ∧
    (∃ s, keyToPublicFctAddress H (.buffer K) = .ok s ∧ substring s 0 2 = "FA") ∧
    (∃ s, rcdHashToPublicFctAddress H (.buffer K) = .ok s ∧ substring s 0 2 = "FA") ∧
    (∃ s, keyToPrivateFctAddress H (.buffer K) = .ok s ∧ substring s 0 2 = "Fs") := by
  have hr : IsBytes (P ++ c) := isBytes_append _ _ hP hc
  have hrl : (P ++ c).length = 36 := by simp [hPl, hcl]
  obtain ⟨hRb, hRl⟩ := rcd1Hash_props H hH K
  refine ⟨⟨?_, ?_, ?_, ?_⟩, ⟨_, keyToAddress_plain H K _ hKl, ?_⟩,
    ⟨_, keyToAddress_plain H K _ hKl, ?_⟩, ⟨_, keyToAddress_rcd H K _ hKl, ?_⟩,
    ⟨_, keyToAddress_plain H K _ hKl, ?_⟩, ⟨_, keyToAddress_plain H K _ hKl, ?_⟩⟩
  · obtain ⟨t, _, ht⟩ := encode_ec_public (P ++ c) hr hrl
    rw [← List.append_assoc] at ht
    exact substring_of_data _ _ _ t ht
  · obtain ⟨t, _, ht⟩ := encode_ec_private (P ++ c) hr hrl
    rw [← List.append_assoc] at ht
    exact substring_of_data _ _ _ t ht
  · obtain ⟨t, _, ht⟩ := encode_fct_public (P ++ c) hr hrl
    rw [← List.append_assoc] at ht
    exact substring_of_data _ _ _ t ht
  · obtain ⟨t, _, ht⟩ := encode_fct_private (P ++ c) hr hrl
    rw [← List.append_assoc] at ht
    exact substring_of_data _ _ _ t ht
  · exact (encoded_valid H hH _ 'E' 'C' prefixLetters_ec_public (by decide) _ hK hKl).2.1
  · exact (encoded_valid H hH _ 'E' 's' prefixLetters_ec_private (by decide) _ hK hKl).2.1
  · exact (encoded_valid H hH _ 'F' 'A' prefixLetters_fct_public (by decide) _ hRb hRl).2.1
  · exact (encoded_valid H hH _ 'F' 'A' prefixLetters_fct_public (by decide) _ hK hKl).2.1
  · exact (encoded_valid H hH _ 'F' 's' prefixLetters_fct_private (by decide) _ hK hKl).2.1

/-- Witness of C4: the all-zero payload and key, the checksum 1 2 3 4, the double SHA-256. -/
theorem prefix_letters_witness :
    (substring (base58.encode (ENTRYCREDIT_PUBLIC_PREFIX ++ zeroKey ++ [1, 2, 3, 4])) 0 2 = "EC" ∧
     substring (base58.encode (ENTRYCREDIT_PRIVATE_PREFIX ++ zeroKey ++ [1, 2, 3, 4])) 0 2 = "Es" ∧
     substring (base58.encode (FACTOID_PUBLIC_PREFIX ++ zeroKey ++ [1, 2, 3, 4])) 0 2 = "FA" ∧
     substring (base58.encode (FACTOID_PRIVATE_PREFIX ++ zeroKey ++ [1, 2, 3, 4])) 0 2 = "Fs") ∧
    (∃ s, keyToPublicEcAddress sha256d (.buffer zeroKey) = .ok s ∧ substring s 0 2 = "EC") ∧
    (∃ s, keyToPrivateEcAddress sha256d (.buffer zeroKey) = .ok s ∧ substring s 0 2 = "Es") ∧
    (∃ s, keyToPublicFctAddress sha256d (.buffer zeroKey) = .ok s ∧ substring s 0 2 = "FA") ∧
    (∃ s, rcdHashToPublicFctAddress sha256d (.buffer zeroKey) = .ok s ∧
      substring s 0 2 = "FA") ∧
    (∃ s, keyToPrivateFctAddress sha256d (.buffer zeroKey) = .ok s ∧ substring s 0 2 = "Fs") :=
  prefix_letters zeroKey [1, 2, 3, 4] (by decide) (by decide) (by decide) (by decide)
    sha256d sha256d_isDigest32 zeroKey (by decide) (by decide)

/-- C5: for every 32-byte key `K`, `keyToPublicFctAddress(K)` and `keyToPrivateFctAddress(K)`
are different strings, the first a valid public Factoid address and the second a valid private
Factoid address. -/
theorem fct_public_private_differ (H : List Nat → List Nat) (hH : IsDigest32 H)
    (K : List Nat) (hK : IsBytes K) (hlen : K.length = 32) :
    ∃ s1 s2, keyToPublicFctAddress H (.buffer K) = .ok s1 ∧
      keyToPrivateFctAddress H (.buffer K) = .ok s2 ∧ s1 ≠ s2 ∧
      isValidFctPublicAddress H s1 = true ∧ isValidFctPrivateAddress H s2 = true := by
  obtain ⟨hRb, hRl⟩ := rcd1Hash_props H hH K
  obtain ⟨_, hsub1, hval1⟩ := encoded_valid H hH _ 'F' 'A' prefixLetters_fct_public
    (by decide) _ hRb hRl
  obtain ⟨_, hsub2, hval2⟩ := encoded_valid H hH _ 'F' 's' prefixLetters_fct_private
    (by decide) _ hK hlen
  refine ⟨_, _, keyToAddress_rcd H K _ hlen, keyToAddress_plain H K _ hlen,
    ?_, ?_, ?_⟩
  · intro heq
    rw [heq, hsub2] at hsub1
    exact absurd hsub1 (by decide)
  · unfold isValidFctPublicAddress
    rw [hval1, hsub1]
    decide
  · unfold isValidFctPrivateAddress
    rw [hval2, hsub2]
    decide

/-- Witness of C5: the all-zero key under the double SHA-256. -/
theorem fct_public_private_differ_witness :
    ∃ s1 s2, keyToPublicFctAddress sha256d (.buffer zeroKey) = .ok s1 ∧
      keyToPrivateFctAddress sha256d (.buffer zeroKey) = .ok s2 ∧ s1 ≠ s2 ∧
      isValidFctPublicAddress sha256d s1 = true ∧ isValidFctPrivateAddress sha256d s2 = true :=
  fct_public_private_differ sha256d sha256d_isDigest32 zeroKey (by decide) (by decide)

/-- C6: for every 32-byte key `K`, `keyToPublicFctAddress(K)` is
`rcdHashToPublicFctAddress(sha256d(0x01 ++ K))` and `addressToRcdHash` of it is
`sha256d(0x01 ++ K)`; the payload (bytes 2 to 34 of the decoding) of the address of every other
encoder is `K` itself. -/
theorem public_fct_payload_is_rcd_hash (H : List Nat → List Nat) (hH : IsDigest32 H)
    (K : List Nat) (hK : IsBytes K) (hlen : K.length = 32) :
    keyToPublicFctAddress H (.buffer K) =
      rcdHashToPublicFctAddress H (.buffer (H ([0x01] ++ K))) ∧
    (∃ s, keyToPublicFctAddress H (.buffer K) = .ok s ∧
      addressToRcdHash H s = .ok (H ([0x01] ++ K))) ∧
    (∃ s b, rcdHashToPublicFctAddress H (.buffer K) = .ok s ∧
      base58.decode s = some b ∧ slice b 2 34 = K) ∧
    (∃ s b, keyToPrivateFctAddress H (.buffer K) = .ok s ∧
      base58.decode s = some b ∧ slice b 2 34 = K) ∧
    (∃ s b, keyToPublicEcAddress H (.buffer K) = .ok s ∧
      base58.decode s = some b ∧ slice b 2 34 = K) ∧
    (∃ s b, keyToPrivateEcAddress H (.buffer K) = .ok s ∧
      base58.decode s = some b ∧ slice b 2 34 = K) := by
  obtain ⟨hRb, hRl⟩ := rcd1Hash_props H hH K
  have hplain : ∀ pfx c1 c2, PrefixLetters pfx c1 c2 → String.mk [c1, c2] ∈ VALID_PREFIXES →
      ∃ s b, keyToAddress H (.buffer K) pfx false = .ok s ∧
        base58.decode s = some b ∧ slice b 2 34 = K := by
    intro pfx c1 c2 hp hv
    exact ⟨_, _, keyToAddress_plain H K pfx hlen,
      (encoded_valid H hH pfx c1 c2 hp hv _ hK hlen).1,
      (withChecksum_props H hH pfx _ hp.1 hp.2.1 hK hlen).2.2.2.2⟩
  refine ⟨?_, ⟨_, keyToAddress_rcd H K _ hlen, ?_⟩, ?_, ?_, ?_, ?_⟩
  · have h1 := keyToAddress_rcd H K FACTOID_PUBLIC_PREFIX hlen
    have h2 := keyToAddress_plain H (keyToRCD1Hash H K) FACTOID_PUBLIC_PREFIX hRl
    exact h1.trans h2.symm
  · exact addressToRcdHash_encoded H hH _ hRb hRl
  · exact hplain _ 'F' 'A' prefixLetters_fct_public (by decide)
  · exact hplain _ 'F' 's' prefixLetters_fct_private (by decide)
  · exact hplain _ 'E' 'C' prefixLetters_ec_public (by decide)
  · exact hplain _ 'E' 's' prefixLetters_ec_private (by decide)

/-- Witness of C6: the all-zero key under the double SHA-256. -/
theorem public_fct_payload_is_rcd_hash_witness :
    keyToPublicFctAddress sha256d (.buffer zeroKey) =
      rcdHashToPublicFctAddress sha256d (.buffer (sha256d ([0x01] ++ zeroKey))) ∧
    (∃ s, keyToPublicFctAddress sha256d (.buffer zeroKey) = .ok s ∧
      addressToRcdHash sha256d s = .ok (sha256d ([0x01] ++ zeroKey))) ∧
    (∃ s b, rcdHashToPublicFctAddress sha256d (.buffer zeroKey) = .ok s ∧
      base58.decode s = some b ∧ slice b 2 34 = zeroKey) ∧
    (∃ s b, keyToPrivateFctAddress sha256d (.buffer zeroKey) = .ok s ∧
      base58.decode s = some b ∧ slice b 2 34 = zeroKey) ∧
    (∃ s b, keyToPublicEcAddress sha256d (.buffer zeroKey) = .ok s ∧
      base58.decode s = some b ∧ slice b 2 34 = zeroKey) ∧
    (∃ s b, keyToPrivateEcAddress sha256d (.buffer zeroKey) = .ok s ∧
      base58.decode s = some b ∧ slice b 2 34 = zeroKey) :=
  public_fct_payload_is_rcd_hash sha256d sha256d_isDigest32 zeroKey (by decide) (by decide)

/-- C7: for every string accepted by `isValidAddress`, exactly one of the four class predicates
is true, and it is the one of the first two characters of the string. -/
theorem class_exclusivity (H : List Nat → List Nat) (a : String)
    (h : isValidAddress H a = true) :
    [isValidEcPublicAddress H a, isValidEcPrivateAddress H a, isValidFctPublicAddress H a,
      isValidFctPrivateAddress H a].count true = 1 ∧
    (isValidEcPublicAddress H a = true ↔ substring a 0 2 = "EC") ∧
    (isValidEcPrivateAddress H a = true ↔ substring a 0 2 = "Es") ∧
    (isValidFctPublicAddress H a = true ↔ substring a 0 2 = "FA") ∧
    (isValidFctPrivateAddress H a = true ↔ substring a 0 2 = "Fs") := by
  have hp := ((isValidAddress_iff H a).mp h).1
  simp only [VALID_PREFIXES, List.mem_cons, List.mem_singleton, List.not_mem_nil,
    or_false] at hp
  unfold isValidEcPublicAddress isValidEcPrivateAddress isValidFctPublicAddress
    isValidFctPrivateAddress
  rw [h]
  rcases hp with hp | hp | hp | hp <;> rw [hp] <;> decide

/-- Witness of C7: the public Entry-Credit address of the all-zero key. -/
theorem class_exclusivity_witness :
    isValidAddress sha256d "EC1m9mouvUQeEidmqpUYpYtXg8fvTYi6GNHaKg8KMLbdMBrFfmUa" = true ∧
    [isValidEcPublicAddress sha256d "EC1m9mouvUQeEidmqpUYpYtXg8fvTYi6GNHaKg8KMLbdMBrFfmUa",
      isValidEcPrivateAddress sha256d "EC1m9mouvUQeEidmqpUYpYtXg8fvTYi6GNHaKg8KMLbdMBrFfmUa",
      isValidFctPublicAddress sha256d "EC1m9mouvUQeEidmqpUYpYtXg8fvTYi6GNHaKg8KMLbdMBrFfmUa",
      isValidFctPrivateAddress sha256d
        "EC1m9mouvUQeEidmqpUYpYtXg8fvTYi6GNHaKg8KMLbdMBrFfmUa"].count true = 1 :=
  ⟨by decide!, (class_exclusivity sha256d
    "EC1m9mouvUQeEidmqpUYpYtXg8fvTYi6GNHaKg8KMLbdMBrFfmUa" (by decide!)).1⟩

/-- C8: `isValidAddress(a)` is true exactly when the first two characters of `a` are one of
"EC", "Es", "FA", "Fs", `a` decodes to exactly 38 bytes `b`, and the first 4 bytes of
`sha256d(b[0:34])` are `b[34:38]`; it is false in every other case, and on a string with a
character outside the Base58 alphabet the decoder raises and the result is false. -/
theorem isValidAddress_characterised (H : List Nat → List Nat) (a : String) :
    (isValidAddress H a = true ↔
      substring a 0 2 ∈ ["EC", "Es", "FA", "Fs"] ∧
      ∃ b, base58.decode a = some b ∧ b.length = 38 ∧
        slice (H (slice b 0 34)) 0 4 = slice b 34 38) ∧
    (isValidAddress H a = false ↔
      ¬ (substring a 0 2 ∈ ["EC", "Es", "FA", "Fs"] ∧
      ∃ b, base58.decode a = some b ∧ b.length = 38 ∧
        slice (H (slice b 0 34)) 0 4 = slice b 34 38)) ∧
    ((∃ c ∈ a.data, c ∉ ALPHABET) → base58.decode a = none ∧ isValidAddress H a = false) := by
  have hiff : isValidAddress H a = true ↔
      substring a 0 2 ∈ ["EC", "Es", "FA", "Fs"] ∧
      ∃ b, base58.decode a = some b ∧ b.length = 38 ∧
        slice (H (slice b 0 34)) 0 4 = slice b 34 38 := by
    rw [isValidAddress_iff]
    have hm : substring a 0 2 ∈ VALID_PREFIXES ↔ substring a 0 2 ∈ ["EC", "Es", "FA", "Fs"] := by
      simp only [VALID_PREFIXES, List.mem_cons, List.mem_singleton, List.not_mem_nil, or_false]
      tauto
    rw [hm]
  refine ⟨hiff, ?_, ?_⟩
  · rw [← hiff]
    simp
  · intro hc
    have hd := decode_eq_none a hc
    refine ⟨hd, ?_⟩
    rw [← Bool.not_eq_true, isValidAddress_iff]
    rintro ⟨_, b, hb, _⟩
    rw [hd] at hb
    exact absurd hb (by simp)

/-- C9: `addressToKey(a)` raises the invalid-address error exactly when `isValidAddress(a)` is
false, raises the RCD-hash error exactly when `a` is valid and starts with "FA", that is when
`isValidFctPublicAddress(a)`, and otherwise returns the 32 bytes `b[2:34]` of the decoding `b`
of `a`. -/
theorem addressToKey_cases (H : List Nat → List Nat) (a : String) :
    (addressToKey H a = .error (.invalidAddress a) ↔ isValidAddress H a = false) ∧
    (addressToKey H a = .error .holdsRcdHash ↔
      (isValidAddress H a = true ∧ "FA".data.isPrefixOf a.data = true)) ∧
    ((isValidAddress H a = true ∧ "FA".data.isPrefixOf a.data = true) ↔
      isValidFctPublicAddress H a = true) ∧
    ((isValidAddress H a = true ∧ "FA".data.isPrefixOf a.data = false) →
      ∃ b, base58.decode a = some b ∧ addressToKey H a = .ok (slice b 2 34) ∧
        (slice b 2 34).length = 32) := by
  have hsw := startsWith_iff_substring a 'F' 'A'
  have hfa : ("FA" : String).data = ['F', 'A'] := rfl
  rw [hfa]
  by_cases hv : isValidAddress H a = true
  · obtain ⟨_, b, hdec, hlen, _⟩ := (isValidAddress_iff H a).mp hv
    have hl : (slice b 2 34).length = 32 := by
      rw [slice_length _ _ _ (by omega)]
    by_cases hp : ['F', 'A'].isPrefixOf a.data = true
    · have hsub := hsw.mp hp
      refine ⟨?_, ?_, ?_, ?_⟩
      · simp [addressToKey, hv, hfa, hp]
      · simp [addressToKey, hv, hfa, hp]
      · simp only [hv, hp, isValidFctPublicAddress, hsub]
        decide
      · simp [hp]
    · have hsub : ¬ substring a 0 2 = String.mk ['F', 'A'] := fun hh => hp (hsw.mpr hh)
      have hsub2 : ¬ substring a 0 2 = "FA" := hsub
      refine ⟨?_, ?_, ?_, ?_⟩
      · simp [addressToKey, hv, hfa, hp, hdec]
      · simp [addressToKey, hv, hfa, hp, hdec]
      · simp [hv, hp, isValidFctPublicAddress, hsub2]
      · intro _
        exact ⟨b, hdec, by simp [addressToKey, hv, hfa, hp, hdec], hl⟩
  · have hv2 : isValidAddress H a = false := by simpa using hv
    refine ⟨?_, ?_, ?_, ?_⟩
    · simp [addressToKey, hv2]
    · simp [addressToKey, hv2]
    · simp [isValidFctPublicAddress, hv2]
    · simp [hv2]

/-- C10: `addressToRcdHash(a)` raises an error exactly when `isValidFctPublicAddress(a)` is
false, so on every valid address of another class and on every invalid string, and otherwise
returns the 32 bytes `b[2:34]` of the decoding `b` of `a`. -/
theorem addressToRcdHash_cases (H : List Nat → List Nat) (a : String) :
    ((∃ e, addressToRcdHash H a = .error e) ↔ isValidFctPublicAddress H a = false) ∧
    (isValidFctPublicAddress H a = false →
      addressToRcdHash H a = .error (.notPublicFactoid a)) ∧
    (isValidFctPublicAddress H a = true →
      ∃ b, base58.decode a = some b ∧ addressToRcdHash H a = .ok (slice b 2 34) ∧
        (slice b 2 34).length = 32) ∧
    ((isValidEcPublicAddress H a = true ∨ isValidEcPrivateAddress H a = true ∨
        isValidFctPrivateAddress H a = true ∨ isValidAddress H a = false) →
      isValidFctPublicAddress H a = false) := by
  have hfalse : isValidFctPublicAddress H a = false →
      addressToRcdHash H a = .error (.notPublicFactoid a) := by
    intro hf
    simp [addressToRcdHash, hf]
  have htrue : isValidFctPublicAddress H a = true →
      ∃ b, base58.decode a = some b ∧ addressToRcdHash H a = .ok (slice b 2 34) ∧
        (slice b 2 34).length = 32 := by
    intro ht
    have hv : isValidAddress H a = true := by
      simp only [isValidFctPublicAddress, Bool.and_eq_true] at ht
      exact ht.1
    obtain ⟨_, b, hdec, hlen, _⟩ := (isValidAddress_iff H a).mp hv
    exact ⟨b, hdec, by simp [addressToRcdHash, ht, hdec],
      by rw [slice_length _ _ _ (by omega)]⟩
  refine ⟨?_, hfalse, htrue, ?_⟩
  · constructor
    · rintro ⟨e, he⟩
      by_contra hne
      obtain ⟨b, _, hok, _⟩ := htrue (by simpa using hne)
      rw [hok] at he
      exact absurd he (by simp)
    · intro hf
      exact ⟨_, hfalse hf⟩
  · unfold isValidEcPublicAddress isValidEcPrivateAddress isValidFctPrivateAddress
      isValidFctPublicAddress
    rintro (h | h | h | h)
    · simp only [Bool.and_eq_true, beq_iff_eq] at h
      rw [h.1, h.2]
      decide
    · simp only [Bool.and_eq_true, beq_iff_eq] at h
      rw [h.1, h.2]
      decide
    · simp only [Bool.and_eq_true, beq_iff_eq] at h
      rw [h.1, h.2]
      decide
    · simp [h]

/-! ## Public addresses of addresses -/

theorem contains_pair (s x y : String) : [x, y].contains s = (s == x || s == y) := by
  by_cases h1 : s = x <;> by_cases h2 : s = y <;> simp [h1, h2]

theorem chars_of_substring (a : String) (c1 c2 : Char)
    (h : substring a 0 2 = String.mk [c1, c2]) :
    a.data.get? 0 = some c1 ∧ a.data.get? 1 = some c2 := by
  rcases a with ⟨l⟩
  rcases l with _ | ⟨x, _ | ⟨y, l⟩⟩ <;> simp [substring, String.ext_iff] at h ⊢
  exact h

theorem getPublicAddress_of_second_char (H sk : List Nat → List Nat) (a : String)
    (hv : isValidAddress H a = true) (h2 : a.data.get? 1 ≠ some 's') :
    getPublicAddress H sk a = .ok a := by
  unfold getPublicAddress
  rw [hv, if_pos h2]
  simp

theorem getPublicAddress_fct_private (H sk : List Nat → List Nat) (a : String) (b : List Nat)
    (hv : isValidAddress H a = true) (hdec : base58.decode a = some b)
    (hs : substring a 0 2 = "Fs") :
    getPublicAddress H sk a = keyToPublicFctAddress H (.buffer (sk (slice b 2 34))) := by
  obtain ⟨h0, h1⟩ := chars_of_substring a 'F' 's' hs
  unfold getPublicAddress
  rw [hv, h0, h1, hdec]
  simp

theorem getPublicAddress_ec_private (H sk : List Nat → List Nat) (a : String) (b : List Nat)
    (hv : isValidAddress H a = true) (hdec : base58.decode a = some b)
    (hs : substring a 0 2 = "Es") :
    getPublicAddress H sk a = keyToPublicEcAddress H (.buffer (sk (slice b 2 34))) := by
  obtain ⟨h0, h1⟩ := chars_of_substring a 'E' 's' hs
  unfold getPublicAddress
  rw [hv, h0, h1, hdec]
  simp

/-- An encoded address whose second letter is not `s` is its own public address. -/
theorem getPublicAddress_encoded (H sk : List Nat → List Nat) (hH : IsDigest32 H)
    (pfx : List Nat) (c1 c2 : Char) (hp : PrefixLetters pfx c1 c2)
    (hv : String.mk [c1, c2] ∈ VALID_PREFIXES) (hc : c2 ≠ 's')
    (P : List Nat) (hP : IsBytes P) (hlen : P.length = 32) :
    getPublicAddress H sk (base58.encode (withChecksum H pfx P)) =
      .ok (base58.encode (withChecksum H pfx P)) := by
  obtain ⟨_, hsub, hval⟩ := encoded_valid H hH pfx c1 c2 hp hv P hP hlen
  obtain ⟨_, h1⟩ := chars_of_substring _ c1 c2 hsub
  apply getPublicAddress_of_second_char H sk _ hval
  rw [h1]
  simpa using hc

theorem valid_prefix_cases (H : List Nat → List Nat) (a : String)
    (hv : isValidAddress H a = true) :
    substring a 0 2 = "Fs" ∨ substring a 0 2 = "FA" ∨ substring a 0 2 = "EC" ∨
      substring a 0 2 = "Es" := by
  have hp := ((isValidAddress_iff H a).mp hv).1
  simpa [VALID_PREFIXES] using hp

/-- C11: `getPublicAddress` returns a valid public address unchanged, and raises the
invalid-address error on every string that `isValidAddress` rejects. -/
theorem getPublicAddress_public_identity (H sk : List Nat → List Nat) (a : String) :
    (isValidPublicAddress H a = true → getPublicAddress H sk a = .ok a) ∧
    (isValidAddress H a = false → getPublicAddress H sk a = .error (.invalidAddress a)) := by
  constructor
  · intro hpub
    simp only [isValidPublicAddress, PUBLIC_ADDRESS_VALID_PREFIXES, contains_pair,
      Bool.and_eq_true, Bool.or_eq_true, beq_iff_eq] at hpub
    obtain ⟨hv, hs | hs⟩ := hpub
    · obtain ⟨_, h1⟩ := chars_of_substring a 'F' 'A' hs
      exact getPublicAddress_of_second_char H sk a hv (by rw [h1]; decide)
    · obtain ⟨_, h1⟩ := chars_of_substring a 'E' 'C' hs
      exact getPublicAddress_of_second_char H sk a hv (by rw [h1]; decide)
  · intro hf
    simp [getPublicAddress, hf]

/-- Witness of C11: the public Entry-Credit address of the all-zero key is returned unchanged
and the string "abc" is refused; SHA-256 stands for the key derivation. -/
theorem getPublicAddress_public_identity_witness :
    isValidPublicAddress sha256d zeroEC = true ∧
    getPublicAddress sha256d sha256 zeroEC = .ok zeroEC ∧
    isValidAddress sha256d "abc" = false ∧
    getPublicAddress sha256d sha256 "abc" = .error (.invalidAddress "abc") :=
  ⟨by decide!, (getPublicAddress_public_identity sha256d sha256 zeroEC).1 (by decide!),
    by decide!, (getPublicAddress_public_identity sha256d sha256 "abc").2 (by decide!)⟩

/-- C12: for every valid address `a`, when the key derivation returns 32 bytes,
`getPublicAddress(a)` succeeds with some address `p` and `getPublicAddress(p)` is `p`. -/
theorem getPublicAddress_idempotent (H sk : List Nat → List Nat) (hH : IsDigest32 H)
    (hsk : Returns32Bytes sk) (a : String) (hv : isValidAddress H a = true) :
    ∃ p, getPublicAddress H sk a = .ok p ∧ getPublicAddress H sk p = .ok p := by
  obtain ⟨_, b, hdec, _, _⟩ := (isValidAddress_iff H a).mp hv
  obtain ⟨hkl, hkb⟩ := hsk (slice b 2 34)
  obtain ⟨hRb, hRl⟩ := rcd1Hash_props H hH (sk (slice b 2 34))
  rcases valid_prefix_cases H a hv with hs | hs | hs | hs
  · refine ⟨_, (getPublicAddress_fct_private H sk a b hv hdec hs).trans
      (keyToAddress_rcd H _ _ hkl), ?_⟩
    exact getPublicAddress_encoded H sk hH _ 'F' 'A' prefixLetters_fct_public (by decide)
      (by decide) _ hRb hRl
  · obtain ⟨_, h1⟩ := chars_of_substring a 'F' 'A' hs
    have := getPublicAddress_of_second_char H sk a hv (by rw [h1]; decide)
    exact ⟨a, this, this⟩
  · obtain ⟨_, h1⟩ := chars_of_substring a 'E' 'C' hs
    have := getPublicAddress_of_second_char H sk a hv (by rw [h1]; decide)
    exact ⟨a, this, this⟩
  · refine ⟨_, (getPublicAddress_ec_private H sk a b hv hdec hs).trans
      (keyToAddress_plain H _ _ hkl), ?_⟩
    exact getPublicAddress_encoded H sk hH _ 'E' 'C' prefixLetters_ec_public (by decide)
      (by decide) _ hkb hkl

/-- Witness of C12: the private Factoid address of the all-zero key under the double SHA-256;
SHA-256 stands for the key derivation. -/
theorem getPublicAddress_idempotent_witness :
    IsDigest32 sha256d ∧ Returns32Bytes sha256 ∧ isValidAddress sha256d zeroFs = true ∧
    ∃ p, getPublicAddress sha256d sha256 zeroFs = .ok p ∧
      getPublicAddress sha256d sha256 p = .ok p :=
  ⟨sha256d_isDigest32, fun _ => ⟨sha256_length _, sha256_isBytes _⟩, by decide!,
    getPublicAddress_idempotent sha256d sha256 sha256d_isDigest32
      (fun _ => ⟨sha256_length _, sha256_isBytes _⟩) zeroFs (by decide!)⟩

theorem isValidEcPublicAddress_encoded (H : List Nat → List Nat) (hH : IsDigest32 H)
    (P : List Nat) (hP : IsBytes P) (hlen : P.length = 32) :
    isValidEcPublicAddress H
      (base58.encode (withChecksum H ENTRYCREDIT_PUBLIC_PREFIX P)) = true := by
  obtain ⟨_, hsub, hval⟩ := encoded_valid H hH _ 'E' 'C' prefixLetters_ec_public
    (by decide) P hP hlen
  unfold isValidEcPublicAddress
  rw [hval, hsub]
  decide

/-- C13: for a valid private address `a` with decoding `b` and a 32-byte public key
`pub = secretToPublicKey(b[2:34])`: a private Factoid `a` gives
`getPublicAddress(a) = keyToPublicFctAddress(pub)`, a valid public Factoid address; a private
Entry-Credit `a` gives `getPublicAddress(a) = keyToPublicEcAddress(pub)`, a valid public
Entry-Credit address whose key is `pub`. -/
theorem getPublicAddress_private (H sk : List Nat → List Nat) (hH : IsDigest32 H)
    (a : String) (b : List Nat) (hdec : base58.decode a = some b)
    (hpl : (sk (slice b 2 34)).length = 32) (hpb : IsBytes (sk (slice b 2 34))) :
    (isValidFctPrivateAddress H a = true →
      getPublicAddress H sk a = keyToPublicFctAddress H (.buffer (sk (slice b 2 34))) ∧
      ∃ p, getPublicAddress H sk a = .ok p ∧ isValidFctPublicAddress H p = true) ∧
    (isValidEcPrivateAddress H a = true →
      getPublicAddress H sk a = keyToPublicEcAddress H (.buffer (sk (slice b 2 34))) ∧
      ∃ p, getPublicAddress H sk a = .ok p ∧ isValidEcPublicAddress H p = true ∧
        addressToKey H p = .ok (sk (slice b 2 34))) := by
  obtain ⟨hRb, hRl⟩ := rcd1Hash_props H hH (sk (slice b 2 34))
  constructor
  · intro h
    simp only [isValidFctPrivateAddress, Bool.and_eq_true, beq_iff_eq] at h
    have hg := getPublicAddress_fct_private H sk a b h.1 hdec h.2
    exact ⟨hg, _, hg.trans (keyToAddress_rcd H _ _ hpl),
      isValidFctPublicAddress_encoded H hH _ hRb hRl⟩
  · intro h
    simp only [isValidEcPrivateAddress, Bool.and_eq_true, beq_iff_eq] at h
    have hg := getPublicAddress_ec_private H sk a b h.1 hdec h.2
    exact ⟨hg, _, hg.trans (keyToAddress_plain H _ _ hpl),
      isValidEcPublicAddress_encoded H hH _ hpb hpl,
      addressToKey_encoded H hH _ 'E' 'C' prefixLetters_ec_public (by decide) (by decide)
        _ hpb hpl⟩

/-- Witness of C13: the private Factoid and the private Entry-Credit address of the all-zero
key under the double SHA-256; SHA-256 stands for the key derivation. -/
theorem getPublicAddress_private_witness :
    (base58.decode zeroFs = some zeroFsBytes ∧
      isValidFctPrivateAddress sha256d zeroFs = true ∧
      getPublicAddress sha256d sha256 zeroFs =
        keyToPublicFctAddress sha256d (.buffer (sha256 (slice zeroFsBytes 2 34))) ∧
      ∃ p, getPublicAddress sha256d sha256 zeroFs = .ok p ∧
        isValidFctPublicAddress sha256d p = true) ∧
    (base58.decode zeroEs = some zeroEsBytes ∧
      isValidEcPrivateAddress sha256d zeroEs = true ∧
      getPublicAddress sha256d sha256 zeroEs =
        keyToPublicEcAddress sha256d (.buffer (sha256 (slice zeroEsBytes 2 34))) ∧
      ∃ p, getPublicAddress sha256d sha256 zeroEs = .ok p ∧
        isValidEcPublicAddress sha256d p = true ∧
        addressToKey sha256d p = .ok (sha256 (slice zeroEsBytes 2 34))) :=
  ⟨⟨by decide, by decide!, (getPublicAddress_private sha256d sha256 sha256d_isDigest32 zeroFs
      zeroFsBytes (by decide) (sha256_length _) (sha256_isBytes _)).1 (by decide!)⟩,
    ⟨by decide, by decide!, (getPublicAddress_private sha256d sha256 sha256d_isDigest32 zeroEs
      zeroEsBytes (by decide) (sha256_length _) (sha256_isBytes _)).2 (by decide!)⟩⟩

/-! ## Key arguments -/

theorem keyToAddress_result (H : List Nat → List Nat) (key : Key) (pfx : List Nat)
    (rcd : Bool) :
    ((∃ e, keyToAddress H key pfx rcd = .error e) ↔ (Buffer.fromHex key).length ≠ 32) ∧
    ((∃ s, keyToAddress H key pfx rcd = .ok s) ↔ (Buffer.fromHex key).length = 32) ∧
    ((Buffer.fromHex key).length ≠ 32 →
      keyToAddress H key pfx rcd = .error (.keyLength (Buffer.fromHex key))) := by
  by_cases h : (Buffer.fromHex key).length = 32
  · simp [keyToAddress, h]
  · simp [keyToAddress, h]

theorem hexValue_hexDigit : ∀ u : Bool, ∀ d, d < 16 →
    utf16Units (hexDigit u d) = [(hexDigit u d).toNat] ∧
      hexValue (hexDigit u d).toNat = some d := by
  decide

theorem hexDecode_hexChars (u : Bool) (K : List Nat) (hK : IsBytes K) :
    hexDecode (jsUnits (hexChars u K)) = K := by
  induction K with
  | nil => simp [hexChars, jsUnits, hexDecode]
  | cons x xs ih =>
    have hx : x < 256 := hK x (by simp)
    obtain ⟨h1, h1v⟩ := hexValue_hexDigit u (x / 16) (by omega)
    obtain ⟨h2, h2v⟩ := hexValue_hexDigit u (x % 16) (by omega)
    have ht := ih (fun y hy => hK y (by simp [hy]))
    simp only [hexChars, jsUnits, h1, h2, List.cons_append, List.nil_append, hexDecode,
      h1v, h2v, ht]
    congr 1
    omega

theorem hexValue_isSome_iff (u : Nat) : (hexValue u).isSome = true ↔ IsHexUnit u := by
  unfold hexValue IsHexUnit
  simp only
  split_ifs <;> simp <;> omega

/-- The decoder yields at least `n` bytes exactly when the string has `n` leading pairs of
hexadecimal digits. -/
theorem le_hexDecode_length (n : Nat) :
    ∀ u : List Nat, n ≤ (hexDecode u).length ↔
      2 * n ≤ u.length ∧ ∀ x ∈ u.take (2 * n), IsHexUnit x := by
  induction n with
  | zero => intro u; simp
  | succ n ih =>
    intro u
    rcases u with _ | ⟨x, _ | ⟨y, rest⟩⟩
    · simp [hexDecode]
    · simp only [hexDecode, List.length_nil, List.length_singleton]
      constructor
      · intro h; omega
      · rintro ⟨h, _⟩; omega
    · have hx := hexValue_isSome_iff x
      have hy := hexValue_isSome_iff y
      have h2 : 2 * (n + 1) = 2 * n + 1 + 1 := by ring
      cases hvx : hexValue x with
      | none =>
        rw [hvx] at hx
        have hnx : ¬ IsHexUnit x := fun h => by simpa using hx.mpr h
        simp [hexDecode, hvx, h2, hnx]
      | some vx =>
        cases hvy : hexValue y with
        | none =>
          rw [hvy] at hy
          have hny : ¬ IsHexUnit y := fun h => by simpa using hy.mpr h
          simp [hexDecode, hvx, hvy, h2, hny]
        | some vy =>
          rw [hvx] at hx
          rw [hvy] at hy
          have hix : IsHexUnit x := hx.mp (by simp)
          have hiy : IsHexUnit y := hy.mp (by simp)
          simp [hexDecode, hvx, hvy, h2, hix, hiy, ih rest]

/-- The decoder yields exactly 32 bytes when the first 64 code units are hexadecimal digits and
they are not followed by one more pair of hexadecimal digits. -/
theorem hexDecode_length_eq_32 (u : List Nat) :
    (hexDecode u).length = 32 ↔
      (64 ≤ u.length ∧ ∀ x ∈ u.take 64, IsHexUnit x) ∧
      ¬ (66 ≤ u.length ∧ ∀ x ∈ u.take 66, IsHexUnit x) := by
  have h32 := le_hexDecode_length 32 u
  have h33 := le_hexDecode_length 33 u
  simp only [Nat.reduceMul] at h32 h33
  rw [← h32, ← h33]
  omega

theorem hexChars_length (u : Bool) (K : List Nat) : (hexChars u K).length = 2 * K.length := by
  induction K with
  | nil => simp [hexChars]
  | cons x xs ih => simp [hexChars, ih]; omega

theorem fromHex_hex (u : Bool) (K : List Nat) (hK : IsBytes K) :
    Buffer.fromHex (.string (hex u K)) = Buffer.fromHex (.buffer K) := by
  simp [Buffer.fromHex, hex, hexDecode_hexChars u K hK]

theorem keyToAddress_congr (H : List Nat → List Nat) (k1 k2 : Key) (pfx : List Nat)
    (rcd : Bool) (h : Buffer.fromHex k1 = Buffer.fromHex k2) :
    keyToAddress H k1 pfx rcd = keyToAddress H k2 pfx rcd := by
  simp [keyToAddress, h]

/-- C14: each of the five encoders raises an error exactly when the buffer read from its key
argument is not 32 bytes long, and returns an address string exactly when it is. The buffer
read from a buffer is the buffer itself; the buffer read from a string is read from its UTF-16
code units, and it is 32 bytes long exactly when the first 64 units are hexadecimal digits and
no further pair of hexadecimal digits follows them. -/
theorem encoders_reject_wrong_length (H : List Nat → List Nat) (key : Key) (b u : List Nat)
    (s : String) :
    (((∃ e, keyToPublicFctAddress H key = .error e) ↔ (Buffer.fromHex key).length ≠ 32) ∧
      ((∃ s, keyToPublicFctAddress H key = .ok s) ↔ (Buffer.fromHex key).length = 32)) ∧
    (((∃ e, rcdHashToPublicFctAddress H key = .error e) ↔ (Buffer.fromHex key).length ≠ 32) ∧
      ((∃ s, rcdHashToPublicFctAddress H key = .ok s) ↔ (Buffer.fromHex key).length = 32)) ∧
    (((∃ e, keyToPrivateFctAddress H key = .error e) ↔ (Buffer.fromHex key).length ≠ 32) ∧
      ((∃ s, keyToPrivateFctAddress H key = .ok s) ↔ (Buffer.fromHex key).length = 32)) ∧
    (((∃ e, keyToPublicEcAddress H key = .error e) ↔ (Buffer.fromHex key).length ≠ 32) ∧
      ((∃ s, keyToPublicEcAddress H key = .ok s) ↔ (Buffer.fromHex key).length = 32)) ∧
    (((∃ e, keyToPrivateEcAddress H key = .error e) ↔ (Buffer.fromHex key).length ≠ 32) ∧
      ((∃ s, keyToPrivateEcAddress H key = .ok s) ↔ (Buffer.fromHex key).length = 32)) ∧
    Buffer.fromHex (.buffer b) = b ∧
    Buffer.fromHex (.string s) = Buffer.fromHex (.units (jsUnits s.data)) ∧
    ((Buffer.fromHex (.units u)).length = 32 ↔
      (64 ≤ u.length ∧ ∀ x ∈ u.take 64, IsHexUnit x) ∧
      ¬ (66 ≤ u.length ∧ ∀ x ∈ u.take 66, IsHexUnit x)) := by
  have h := fun pfx rcd => keyToAddress_result H key pfx rcd
  exact ⟨⟨(h _ _).1, (h _ _).2.1⟩, ⟨(h _ _).1, (h _ _).2.1⟩, ⟨(h _ _).1, (h _ _).2.1⟩,
    ⟨(h _ _).1, (h _ _).2.1⟩, ⟨(h _ _).1, (h _ _).2.1⟩, rfl, rfl, hexDecode_length_eq_32 u⟩

/-- Witness of C14: 64 characters U+0130, 64 lone surrogates U+D830 and 65 characters 0 are all
read as the all-zero key and give its address; 66 characters 0 are read as 33 bytes and the
string "0g" as none, and both are refused. -/
theorem encoders_reject_wrong_length_witness :
    Buffer.fromHex (.string dotted64) = zeroKey ∧
    (keyToPublicEcAddress sha256d (.string dotted64)).toOption = some zeroEC ∧
    Buffer.fromHex (.units (List.replicate 64 0xD830)) = zeroKey ∧
    Buffer.fromHex (.string (String.mk (List.replicate 65 '0'))) = zeroKey ∧
    (Buffer.fromHex (.string (String.mk (List.replicate 66 '0')))).length = 33 ∧
    Buffer.fromHex (.string "0g") = [] ∧
    (∃ s, keyToPublicEcAddress sha256d (.string dotted64) = .ok s) ∧
    (∃ e, keyToPublicEcAddress sha256d (.string "0g") = .error e) :=
  ⟨by decide, by decide!, by decide, by decide, by decide, by decide,
    (encoders_reject_wrong_length sha256d (.string dotted64) [] [] "").2.2.2.1.2.mpr
      (by decide),
    (encoders_reject_wrong_length sha256d (.string "0g") [] [] "").2.2.2.1.1.mpr
      (by decide)⟩

/-- C15: for every 32-byte buffer `K`, the hexadecimal string of `K`, in upper or in lower case,
has 64 characters and each of the five encoders returns on it what it returns on `K`. -/
theorem hex_and_raw_agree (H : List Nat → List Nat) (upper : Bool) (K : List Nat)
    (hK : IsBytes K) (hlen : K.length = 32) :
    (hex upper K).length = 64 ∧
    keyToPublicFctAddress H (.string (hex upper K)) = keyToPublicFctAddress H (.buffer K) ∧
    rcdHashToPublicFctAddress H (.string (hex upper K)) =
      rcdHashToPublicFctAddress H (.buffer K) ∧
    keyToPrivateFctAddress H (.string (hex upper K)) = keyToPrivateFctAddress H (.buffer K) ∧
    keyToPublicEcAddress H (.string (hex upper K)) = keyToPublicEcAddress H (.buffer K) ∧
    keyToPrivateEcAddress H (.string (hex upper K)) = keyToPrivateEcAddress H (.buffer K) ∧
    ∃ s, keyToPublicEcAddress H (.string (hex upper K)) = .ok s := by
  have h := fromHex_hex upper K hK
  refine ⟨?_, keyToAddress_congr H _ _ _ _ h, keyToAddress_congr H _ _ _ _ h,
    keyToAddress_congr H _ _ _ _ h, keyToAddress_congr H _ _ _ _ h,
    keyToAddress_congr H _ _ _ _ h, ?_⟩
  · show (hexChars upper K).length = 64
    rw [hexChars_length, hlen]
  · exact ⟨_, (keyToAddress_congr H _ _ _ _ h).trans (keyToAddress_plain H K _ hlen)⟩

/-- Witness of C15: the all-zero key in upper-case hexadecimal under the double SHA-256. -/
theorem hex_and_raw_agree_witness :
    hex true zeroKey = "0000000000000000000000000000000000000000000000000000000000000000" ∧
    keyToPublicEcAddress sha256d (.string (hex true zeroKey)) =
      keyToPublicEcAddress sha256d (.buffer zeroKey) :=
  ⟨by decide, (hex_and_raw_agree sha256d true zeroKey (by decide) (by decide)).2.2.2.2.1⟩

/-! ## Layout and re-encoding -/

theorem slice_zero_append (b : List α) (j k : Nat) (h : j ≤ k) :
    slice b 0 j ++ slice b j k = slice b 0 k := by
  have ht : List.take j b = List.take j (List.take k b) := by
    rw [List.take_take, Nat.min_eq_left h]
  simp only [slice, List.drop_zero]
  rw [ht]
  exact List.take_append_drop j (List.take k b)

theorem slice_all (b : List α) (n : Nat) (h : b.length = n) : slice b 0 n = b := by
  subst h
  simp [slice]

theorem slice_prefix (p k c : List α) (hp : p.length = 2) :
    slice ((p ++ k) ++ c) 0 2 = p := by
  rw [List.append_assoc]
  exact slice_append_left p (k ++ c) 2 hp

/-- The 38 bytes of an encoded address: prefix, payload, checksum of the first 34. -/
theorem layout_encoded (H : List Nat → List Nat) (hH : IsDigest32 H) (pfx : List Nat)
    (c1 c2 : Char) (hp : PrefixLetters pfx c1 c2) (hv : String.mk [c1, c2] ∈ VALID_PREFIXES)
    (P : List Nat) (hP : IsBytes P) (hlen : P.length = 32) :
    ∃ b, base58.decode (base58.encode (withChecksum H pfx P)) = some b ∧ b.length = 38 ∧
      slice b 0 2 = pfx ∧ slice b 2 34 = P ∧
      slice b 34 38 = slice (H (slice b 0 34)) 0 4 := by
  obtain ⟨hdec, _, _⟩ := encoded_valid H hH pfx c1 c2 hp hv P hP hlen
  obtain ⟨_, hl, hs1, hs2, hs3⟩ := withChecksum_props H hH pfx P hp.1 hp.2.1 hP hlen
  exact ⟨_, hdec, hl, slice_prefix _ _ _ hp.1, hs3, by rw [hs2, hs1]⟩

/-- Re-encoding the payload of a valid address under the prefix bytes of its decoding gives
back the address. -/
theorem reencode (H : List Nat → List Nat) (a : String) (b : List Nat)
    (hv : isValidAddress H a = true) (hdec : base58.decode a = some b) :
    keyToAddress H (.buffer (slice b 2 34)) (slice b 0 2) false = .ok a := by
  obtain ⟨_, b1, hdec1, hlen, hck⟩ := (isValidAddress_iff H a).mp hv
  rw [hdec] at hdec1
  simp only [Option.some.injEq] at hdec1
  subst hdec1
  have hl : (slice b 2 34).length = 32 := by
    rw [slice_length _ _ _ (by omega)]
  rw [keyToAddress_plain H _ _ hl]
  have h34 : slice b 0 2 ++ slice b 2 34 = slice b 0 34 := slice_zero_append b 2 34 (by omega)
  have hb : withChecksum H (slice b 0 2) (slice b 2 34) = b := by
    unfold withChecksum
    rw [h34, hck, slice_zero_append b 34 38 (by omega), slice_all b 38 hlen]
  rw [hb, encode_decode a b hdec]

theorem digitChar_mem : ∀ d, d < 58 → digitChar d ∈ ALPHABET := by
  decide

theorem encode_chars_mem (b : List Nat) : ∀ c ∈ (base58.encode b).data, c ∈ ALPHABET := by
  intro c hc
  simp only [base58.encode, List.mem_map] at hc
  obtain ⟨d, hd, rfl⟩ := hc
  exact digitChar_mem d (rebase_lt 256 58 _ (by norm_num) b d hd)

/-- An encoded address has 52 characters of the Base58 alphabet. -/
theorem encoded_length (H : List Nat → List Nat) (hH : IsDigest32 H) (pfx : List Nat)
    (c1 c2 : Char) (hp : PrefixLetters pfx c1 c2)
    (P : List Nat) (hP : IsBytes P) (hlen : P.length = 32) :
    (base58.encode (withChecksum H pfx P)).length = 52 ∧
      ∀ c ∈ (base58.encode (withChecksum H pfx P)).data, c ∈ ALPHABET := by
  have h4 : (slice (H (pfx ++ P)) 0 4).length = 4 := by
    rw [slice_length _ _ _ (by rw [(hH _).1]; norm_num)]
  obtain ⟨t, ht, hd⟩ := hp.2.2 (P ++ slice (H (pfx ++ P)) 0 4)
    (isBytes_append _ _ hP (isBytes_slice _ _ _ (hH _).2)) (by simp [hlen, h4])
  refine ⟨?_, encode_chars_mem _⟩
  show (base58.encode (withChecksum H pfx P)).data.length = 52
  rw [withChecksum, List.append_assoc, hd]
  simp [ht]

/-- C16: the four set-valued class predicates are the disjunctions of the exact ones, and all
eight class predicates are false on a string that `isValidAddress` rejects. -/
theorem class_predicates_unions (H : List Nat → List Nat) (a : String) :
    isValidPublicAddress H a = (isValidEcPublicAddress H a || isValidFctPublicAddress H a) ∧
    isValidPrivateAddress H a =
      (isValidEcPrivateAddress H a || isValidFctPrivateAddress H a) ∧
    isValidEcAddress H a = (isValidEcPublicAddress H a || isValidEcPrivateAddress H a) ∧
    isValidFctAddress H a = (isValidFctPublicAddress H a || isValidFctPrivateAddress H a) ∧
    (isValidAddress H a = false →
      isValidPublicAddress H a = false ∧ isValidPrivateAddress H a = false ∧
      isValidEcAddress H a = false ∧ isValidFctAddress H a = false ∧
      isValidEcPublicAddress H a = false ∧ isValidEcPrivateAddress H a = false ∧
      isValidFctPublicAddress H a = false ∧ isValidFctPrivateAddress H a = false) := by
  unfold isValidPublicAddress isValidPrivateAddress isValidEcAddress isValidFctAddress
    isValidEcPublicAddress isValidEcPrivateAddress isValidFctPublicAddress
    isValidFctPrivateAddress
  simp only [PUBLIC_ADDRESS_VALID_PREFIXES, PRIVATE_ADDRESS_VALID_PREFIXES,
    EC_ADDRESS_VALID_PREFIXES, FCT_ADDRESS_VALID_PREFIXES, contains_pair]
  cases isValidAddress H a
  · simp
  · simp [Bool.or_comm]

/-- C17: for every 32-byte key `K`, the string of each encoder decodes to exactly 38 bytes `b`
with `b[0:2]` the prefix of the encoder, `b[2:34]` the payload (`K`, or `sha256d(0x01 ++ K)`
for `keyToPublicFctAddress`) and `b[34:38]` the first 4 bytes of `sha256d(b[0:34])`. -/
theorem binary_layout (H : List Nat → List Nat) (hH : IsDigest32 H)
    (K : List Nat) (hK : IsBytes K) (hlen : K.length = 32) :
    (∃ s b, keyToPublicFctAddress H (.buffer K) = .ok s ∧ base58.decode s = some b ∧
      b.length = 38 ∧ slice b 0 2 = [0x5f, 0xb1] ∧ slice b 2 34 = H ([0x01] ++ K) ∧
      slice b 34 38 = slice (H (slice b 0 34)) 0 4) ∧
    (∃ s b, rcdHashToPublicFctAddress H (.buffer K) = .ok s ∧ base58.decode s = some b ∧
      b.length = 38 ∧ slice b 0 2 = [0x5f, 0xb1] ∧ slice b 2 34 = K ∧
      slice b 34 38 = slice (H (slice b 0 34)) 0 4) ∧
    (∃ s b, keyToPrivateFctAddress H (.buffer K) = .ok s ∧ base58.decode s = some b ∧
      b.length = 38 ∧ slice b 0 2 = [0x64, 0x78] ∧ slice b 2 34 = K ∧
      slice b 34 38 = slice (H (slice b 0 34)) 0 4) ∧
    (∃ s b, keyToPublicEcAddress H (.buffer K) = .ok s ∧ base58.decode s = some b ∧
      b.length = 38 ∧ slice b 0 2 = [0x59, 0x2a] ∧ slice b 2 34 = K ∧
      slice b 34 38 = slice (H (slice b 0 34)) 0 4) ∧
    (∃ s b, keyToPrivateEcAddress H (.buffer K) = .ok s ∧ base58.decode s = some b ∧
      b.length = 38 ∧ slice b 0 2 = [0x5d, 0xb6] ∧ slice b 2 34 = K ∧
      slice b 34 38 = slice (H (slice b 0 34)) 0 4) := by
  obtain ⟨hRb, hRl⟩ := rcd1Hash_props H hH K
  obtain ⟨b1, h1⟩ := layout_encoded H hH _ 'F' 'A' prefixLetters_fct_public (by decide)
    _ hRb hRl
  obtain ⟨b2, h2⟩ := layout_encoded H hH _ 'F' 'A' prefixLetters_fct_public (by decide)
    _ hK hlen
  obtain ⟨b3, h3⟩ := layout_encoded H hH _ 'F' 's' prefixLetters_fct_private (by decide)
    _ hK hlen
  obtain ⟨b4, h4⟩ := layout_encoded H hH _ 'E' 'C' prefixLetters_ec_public (by decide)
    _ hK hlen
  obtain ⟨b5, h5⟩ := layout_encoded H hH _ 'E' 's' prefixLetters_ec_private (by decide)
    _ hK hlen
  exact ⟨⟨_, b1, keyToAddress_rcd H K _ hlen, h1⟩, ⟨_, b2, keyToAddress_plain H K _ hlen, h2⟩,
    ⟨_, b3, keyToAddress_plain H K _ hlen, h3⟩, ⟨_, b4, keyToAddress_plain H K _ hlen, h4⟩,
    ⟨_, b5, keyToAddress_plain H K _ hlen, h5⟩⟩

/-- Witness of C17: the all-zero key under the double SHA-256. -/
theorem binary_layout_witness :
    ∃ s b, keyToPublicEcAddress sha256d (.buffer zeroKey) = .ok s ∧
      base58.decode s = some b ∧
      b.length = 38 ∧ slice b 0 2 = [0x59, 0x2a] ∧ slice b 2 34 = zeroKey ∧
      slice b 34 38 = slice (sha256d (slice b 0 34)) 0 4 :=
  (binary_layout sha256d sha256d_isDigest32 zeroKey (by decide) (by decide)).2.2.2.1

theorem addressToKey_of_letters (H : List Nat → List Nat) (a : String) (b : List Nat)
    (hv : isValidAddress H a = true) (hdec : base58.decode a = some b)
    (hne : substring a 0 2 ≠ "FA") : addressToKey H a = .ok (slice b 2 34) := by
  have hfa : ("FA".data.isPrefixOf a.data) = false := by
    rw [Bool.eq_false_iff]
    intro h
    exact hne ((startsWith_iff_substring a 'F' 'A').mp h)
  unfold addressToKey
  simp [hv, hfa, hdec]

theorem addressToRcdHash_of_valid (H : List Nat → List Nat) (a : String) (b : List Nat)
    (hv : isValidFctPublicAddress H a = true) (hdec : base58.decode a = some b) :
    addressToRcdHash H a = .ok (slice b 2 34) := by
  unfold addressToRcdHash
  simp [hv, hdec]

/-- C18: for a valid address `a` whose decoding starts with the prefix constant of its class,
the encoder of that class returns `a` on the payload extracted from `a`. -/
theorem canonical_reencoding (H : List Nat → List Nat) (a : String) (b : List Nat)
    (hv : isValidAddress H a = true) (hdec : base58.decode a = some b) :
    (isValidEcPublicAddress H a = true → slice b 0 2 = ENTRYCREDIT_PUBLIC_PREFIX →
      ∃ k, addressToKey H a = .ok k ∧ keyToPublicEcAddress H (.buffer k) = .ok a) ∧
    (isValidEcPrivateAddress H a = true → slice b 0 2 = ENTRYCREDIT_PRIVATE_PREFIX →
      ∃ k, addressToKey H a = .ok k ∧ keyToPrivateEcAddress H (.buffer k) = .ok a) ∧
    (isValidFctPrivateAddress H a = true → slice b 0 2 = FACTOID_PRIVATE_PREFIX →
      ∃ k, addressToKey H a = .ok k ∧ keyToPrivateFctAddress H (.buffer k) = .ok a) ∧
    (isValidFctPublicAddress H a = true → slice b 0 2 = FACTOID_PUBLIC_PREFIX →
      ∃ h, addressToRcdHash H a = .ok h ∧
        rcdHashToPublicFctAddress H (.buffer h) = .ok a) := by
  have hre := reencode H a b hv hdec
  refine ⟨?_, ?_, ?_, ?_⟩
  · intro hc hp
    simp only [isValidEcPublicAddress, Bool.and_eq_true, beq_iff_eq] at hc
    rw [hp] at hre
    exact ⟨_, addressToKey_of_letters H a b hv hdec (by rw [hc.2]; decide), hre⟩
  · intro hc hp
    simp only [isValidEcPrivateAddress, Bool.and_eq_true, beq_iff_eq] at hc
    rw [hp] at hre
    exact ⟨_, addressToKey_of_letters H a b hv hdec (by rw [hc.2]; decide), hre⟩
  · intro hc hp
    simp only [isValidFctPrivateAddress, Bool.and_eq_true, beq_iff_eq] at hc
    rw [hp] at hre
    exact ⟨_, addressToKey_of_letters H a b hv hdec (by rw [hc.2]; decide), hre⟩
  · intro hc hp
    rw [hp] at hre
    exact ⟨_, addressToRcdHash_of_valid H a b hc hdec, hre⟩

/-- Witness of C18: the public Entry-Credit address of the all-zero key under the double
SHA-256. -/
theorem canonical_reencoding_witness :
    isValidAddress sha256d zeroEC = true ∧ base58.decode zeroEC = some zeroECBytes ∧
    isValidEcPublicAddress sha256d zeroEC = true ∧
    slice zeroECBytes 0 2 = ENTRYCREDIT_PUBLIC_PREFIX ∧
    ∃ k, addressToKey sha256d zeroEC = .ok k ∧
      keyToPublicEcAddress sha256d (.buffer k) = .ok zeroEC :=
  ⟨by decide!, by decide, by decide!, by decide,
    (canonical_reencoding sha256d zeroEC zeroECBytes (by decide!) (by decide)).1
      (by decide!) (by decide)⟩

/-- C19: for every 32-byte key `K`, the string of each of the five encoders has exactly 52
characters, all of the Base58 alphabet. -/
theorem encoded_length_52 (H : List Nat → List Nat) (hH : IsDigest32 H)
    (K : List Nat) (hK : IsBytes K) (hlen : K.length = 32) :
    (∃ s, keyToPublicFctAddress H (.buffer K) = .ok s ∧ s.length = 52 ∧
      ∀ c ∈ s.data, c ∈ ALPHABET) ∧
    (∃ s, rcdHashToPublicFctAddress H (.buffer K) = .ok s ∧ s.length = 52 ∧
      ∀ c ∈ s.data, c ∈ ALPHABET) ∧
    (∃ s, keyToPrivateFctAddress H (.buffer K) = .ok s ∧ s.length = 52 ∧
      ∀ c ∈ s.data, c ∈ ALPHABET) ∧
    (∃ s, keyToPublicEcAddress H (.buffer K) = .ok s ∧ s.length = 52 ∧
      ∀ c ∈ s.data, c ∈ ALPHABET) ∧
    (∃ s, keyToPrivateEcAddress H (.buffer K) = .ok s ∧ s.length = 52 ∧
      ∀ c ∈ s.data, c ∈ ALPHABET) := by
  obtain ⟨hRb, hRl⟩ := rcd1Hash_props H hH K
  exact ⟨⟨_, keyToAddress_rcd H K _ hlen,
      encoded_length H hH _ 'F' 'A' prefixLetters_fct_public _ hRb hRl⟩,
    ⟨_, keyToAddress_plain H K _ hlen,
      encoded_length H hH _ 'F' 'A' prefixLetters_fct_public _ hK hlen⟩,
    ⟨_, keyToAddress_plain H K _ hlen,
      encoded_length H hH _ 'F' 's' prefixLetters_fct_private _ hK hlen⟩,
    ⟨_, keyToAddress_plain H K _ hlen,
      encoded_length H hH _ 'E' 'C' prefixLetters_ec_public _ hK hlen⟩,
    ⟨_, keyToAddress_plain H K _ hlen,
      encoded_length H hH _ 'E' 's' prefixLetters_ec_private _ hK hlen⟩⟩

/-- Witness of C19: the all-zero key under the double SHA-256. -/
theorem encoded_length_52_witness :
    ∃ s, keyToPrivateEcAddress sha256d (.buffer zeroKey) = .ok s ∧ s.length = 52 ∧
      ∀ c ∈ s.data, c ∈ ALPHABET :=
  (encoded_length_52 sha256d sha256d_isDigest32 zeroKey (by decide) (by decide)).2.2.2.2

end Factom
